import Mathlib

/-!
The keyboard_synth core: oscillator, envelope, instruments, note registry and mixer.

A shallow embedding of `src/main.cpp`.

* A C++ `double` is an element of a linearly ordered field `α` with exact
  arithmetic.  The definitions are generic in `α`: at `α = ℚ` they evaluate, at
  `α = ℝ` the library functions are `Real.sin`, `Real.arcsin` and `Real.pi`.
* Where the rounding of doubles decides a property, it is modelled: `fl64` is
  the IEEE 754 binary64 rounding to nearest, ties to even, of a rational
  (exponent range unbounded); `TWO_TWELFTH_ROOT` is the double the literal is
  stored as; `envelope_synth.amplitudeR` is the envelope with every arithmetic
  result rounded; `scaleWith` is `scale` with the library function `pow` as a
  parameter.
* `sin`, `asin`, `PI` (declared in `SoundMachine.h`) and `RAND_MAX` are not part
  of `main.cpp`; they are the fields of `Libm`.  The value returned by a call of
  `rand()` is an argument of the function that makes the call.
* `int` is `Int`; note ids are scale positions near `0 .. 15`, far from overflow.
* The global `vecNotes` is a `List` passed in and out explicitly; the mutex only
  makes each key step and each render pass atomic, which is what a function
  application already is.
* `on` is a reserved word of Lean, so the field `note::on` is `on_`.
-/

namespace KeyboardSynth

/-! ## Constants (main.cpp 8-16) -/

def SINE_WAVE : Int := 0
def SQUARE_WAVE : Int := 1
def TRIANGLE_WAVE : Int := 2
def SAWTOOTH_WAVE : Int := 3
def NOISE : Int := 4
def SCALE_DEFAULT : Int := 0

/-- The constant `TWO_TWELFTH_ROOT` (main.cpp 16): the double the literal
`1.0594630943592952645618252949463` is stored as, `0x1.0f38f92d97963p+0`
(`TWO_TWELFTH_ROOT_eq_fl64`).  It is slightly above `2^(1/12)`. -/
def TWO_TWELFTH_ROOT (α : Type) [LinearOrderedField α] : α :=
  4771397596969315 / 4503599627370496

/-- The part of the C library and of `SoundMachine.h` that `main.cpp` uses. -/
structure Libm (α : Type) where
  sin : α → α
  asin : α → α
  PI : α
  RAND_MAX : Int

section Model

variable {α : Type} [LinearOrderedField α]

/-- Convert frequency to angular velocity (main.cpp 19-22). -/
def hzToAngular (L : Libm α) (f : α) : α :=
  f * 2.0 * L.PI

/-- A `note` of main.cpp 24-40. -/
structure note (α : Type) where
  id : Int
  on_ : α
  off : α
  active : Bool
  channel : Int
deriving DecidableEq

/-- The default constructor `note()`. -/
def note.new : note α :=
  ⟨0, 0.0, 0.0, false, 0⟩

/-- The oscillator of main.cpp 43-72; `rand` is the result of the `rand()` call
of the `NOISE` case.  The loop `for (double n = 1.0; n < 50; n++)` runs over
`n = 1, ..., 49`. -/
def oscillator (L : Libm α) (rand : Int) (t f : α) (nType : Int)
    (lowFreqOscHertz lowFreqOscAmp : α) : α :=
  let baseFreq := hzToAngular L f * t
    + lowFreqOscAmp * f * (L.sin (hzToAngular L lowFreqOscHertz * t))
  if nType = SINE_WAVE then
    L.sin baseFreq
  else if nType = SQUARE_WAVE then
    if L.sin baseFreq > 0 then 1.0 else -1.0
  else if nType = TRIANGLE_WAVE then
    L.asin (L.sin baseFreq) * (2.0 / L.PI)
  else if nType = SAWTOOTH_WAVE then
    (List.range' 1 49).foldl
      (fun (dOutput : α) (n : ℕ) => dOutput + (L.sin ((n : α) * baseFreq)) / (n : α)) 0.0
      * (2.0 / L.PI)
  else if nType = NOISE then
    2.0 * ((rand : α) / (L.RAND_MAX : α)) - 1.0
  else
    0.0

/-- Note position to frequency (main.cpp 75-82); both cases of the switch are
the default scale.  The library call `pow` is taken as the exact power here;
`scaleWith` has it as a parameter. -/
def scale (nNoteID : Int) (nScaleID : Int) : α :=
  if nScaleID = SCALE_DEFAULT then 256 * TWO_TWELFTH_ROOT α ^ nNoteID
  else 256 * TWO_TWELFTH_ROOT α ^ nNoteID

/-- The fields of `envelope_synth` (main.cpp 92-95). -/
structure envelope_synth (α : Type) where
  attackTime : α
  decayTime : α
  releaseTime : α
  sustainAmplitude : α
  startAmplitude : α

/-- The constructor `envelope_synth()` (main.cpp 97-104). -/
def envelope_synth.new : envelope_synth α where
  attackTime := 0.1
  decayTime := 0.1
  sustainAmplitude := 1.0
  releaseTime := 0.2
  startAmplitude := 1.0

/-- The method `envelope_synth::amplitude` (main.cpp 106-147): three
consecutive `if` statements assign the level, in both branches. -/
def envelope_synth.amplitude (e : envelope_synth α) (time timeOn timeOff : α) : α :=
  let amplitude : α :=
    if timeOn > timeOff then
      let lifeTime := time - timeOn
      let amplitude1 : α :=
        if lifeTime ≤ e.attackTime then (lifeTime / e.attackTime) * e.startAmplitude
        else 0.0
      let amplitude2 : α :=
        if lifeTime > e.attackTime ∧ lifeTime ≤ (e.attackTime + e.decayTime) then
          ((lifeTime - e.attackTime) / e.decayTime)
            * (e.sustainAmplitude - e.startAmplitude) + e.startAmplitude
        else amplitude1
      if lifeTime > (e.attackTime + e.decayTime) then e.sustainAmplitude
      else amplitude2
    else
      let lifeTime := timeOff - timeOn
      let releaseAmplitude1 : α :=
        if lifeTime ≤ e.attackTime then (lifeTime / e.attackTime) * e.startAmplitude
        else 0.0
      let releaseAmplitude2 : α :=
        if lifeTime > e.attackTime ∧ lifeTime ≤ (e.attackTime + e.decayTime) then
          ((lifeTime - e.attackTime) / e.decayTime)
            * (e.sustainAmplitude - e.startAmplitude) + e.startAmplitude
        else releaseAmplitude1
      let releaseAmplitude : α :=
        if lifeTime > (e.attackTime + e.decayTime) then e.sustainAmplitude
        else releaseAmplitude2
      ((time - timeOff) / e.releaseTime) * (0.0 - releaseAmplitude) + releaseAmplitude
  if amplitude ≤ 0.000 then 0.0 else amplitude

/-- The free function `envamp` (main.cpp 150-153). -/
def envamp (time : α) (env : envelope_synth α) (timeOn timeOff : α) : α :=
  env.amplitude time timeOn timeOff

/-- The data members of `instrument` (main.cpp 156-161). -/
structure instrument (α : Type) where
  volume : α
  env : envelope_synth α

/-- The global `instBell`, built by `instrument_bell()` (main.cpp 165-173). -/
def instBell : instrument α where
  env := { (envelope_synth.new : envelope_synth α) with
    attackTime := 0.01, decayTime := 1.0, sustainAmplitude := 0.0, releaseTime := 1.0 }
  volume := 1.0

/-- The global `instHarm`, built by `instrument_harmonica()` (main.cpp 192-200). -/
def instHarm : instrument α where
  env := { (envelope_synth.new : envelope_synth α) with
    attackTime := 0.05, decayTime := 1.0, sustainAmplitude := 0.95, releaseTime := 0.1 }
  volume := 1.0

/-- The global `instHpchord`, built by `instrument_harpsichord()`
(main.cpp 219-227). -/
def instHpchord : instrument α where
  env := { (envelope_synth.new : envelope_synth α) with
    attackTime := 0.01, decayTime := 1.0, sustainAmplitude := 0.0, releaseTime := 1.0 }
  volume := 1.0

/-- The global `instBass`, built by `instrument_bass()` (main.cpp 245-253). -/
def instBass : instrument α where
  env := { (envelope_synth.new : envelope_synth α) with
    attackTime := 0.01, decayTime := 0.5, sustainAmplitude := 0.0, releaseTime := 0.5 }
  volume := 1.0

/-- The global `instOcar`, built by `instrument_ocarina()` (main.cpp 271-279). -/
def instOcar : instrument α where
  env := { (envelope_synth.new : envelope_synth α) with
    attackTime := 0.1, decayTime := 0.0, sustainAmplitude := 1.0, releaseTime := 1.0 }
  volume := 1.0

/-- The method `instrument_bell::createSound` (main.cpp 175-186).  The reference
parameter `isNoteFinished` is passed in and returned. -/
def instrument_bell.createSound (self : instrument α) (L : Libm α) (rand : Int)
    (time : α) (n : note α) (isNoteFinished : Bool) : α × Bool :=
  let amplitude := envamp time self.env n.on_ n.off
  let isNoteFinished := if amplitude ≤ 0.0 then true else isNoteFinished
  let sound : α :=
    1.00 * oscillator L rand (n.on_ - time) (scale (n.id + 12) SCALE_DEFAULT) SINE_WAVE 5.0 0.001
    + 0.50 * oscillator L rand (n.on_ - time) (scale (n.id + 48) SCALE_DEFAULT) SINE_WAVE 0.0 0.0
    + 0.25 * oscillator L rand (n.on_ - time) (scale (n.id + 60) SCALE_DEFAULT) SINE_WAVE 0.0 0.0
  (amplitude * sound * self.volume, isNoteFinished)

/-- The method `instrument_harmonica::createSound` (main.cpp 202-213); its third
voice is the one call of `rand()`. -/
def instrument_harmonica.createSound (self : instrument α) (L : Libm α) (rand : Int)
    (time : α) (n : note α) (isNoteFinished : Bool) : α × Bool :=
  let amplitude := envamp time self.env n.on_ n.off
  let isNoteFinished := if amplitude ≤ 0.0 then true else isNoteFinished
  let sound : α :=
    1.00 * oscillator L rand (n.on_ - time) (scale n.id SCALE_DEFAULT) SQUARE_WAVE 5.0 0.001
    + 0.50 * oscillator L rand (n.on_ - time) (scale (n.id + 12) SCALE_DEFAULT) SQUARE_WAVE 0.0 0.0
    + 0.05 * oscillator L rand (n.on_ - time) (scale (n.id + 24) SCALE_DEFAULT) NOISE 0.0 0.0
  (amplitude * sound * self.volume, isNoteFinished)

/-- The method `instrument_harpsichord::createSound` (main.cpp 229-239). -/
def instrument_harpsichord.createSound (self : instrument α) (L : Libm α) (rand : Int)
    (time : α) (n : note α) (isNoteFinished : Bool) : α × Bool :=
  let amplitude := envamp time self.env n.on_ n.off
  let isNoteFinished := if amplitude ≤ 0.0 then true else isNoteFinished
  let sound : α :=
    1.00 * oscillator L rand (n.on_ - time) (scale n.id SCALE_DEFAULT) SAWTOOTH_WAVE 0.0 0.0
    + 0.2 * oscillator L rand (n.on_ - time) (scale (n.id + 7) SCALE_DEFAULT) SAWTOOTH_WAVE 0.0 0.0
  (amplitude * sound * self.volume, isNoteFinished)

/-- The method `instrument_bass::createSound` (main.cpp 255-265). -/
def instrument_bass.createSound (self : instrument α) (L : Libm α) (rand : Int)
    (time : α) (n : note α) (isNoteFinished : Bool) : α × Bool :=
  let amplitude := envamp time self.env n.on_ n.off
  let isNoteFinished := if amplitude ≤ 0.0 then true else isNoteFinished
  let sound : α :=
    1.00 * oscillator L rand (n.on_ - time) (scale (n.id - 30) SCALE_DEFAULT) SAWTOOTH_WAVE 0.0 0.0
    + 0.8 * oscillator L rand (n.on_ - time) (scale (n.id - 30) SCALE_DEFAULT) SAWTOOTH_WAVE 0.0 0.0
  (amplitude * sound * self.volume, isNoteFinished)

/-- The method `instrument_ocarina::createSound` (main.cpp 281-292). -/
def instrument_ocarina.createSound (self : instrument α) (L : Libm α) (rand : Int)
    (time : α) (n : note α) (isNoteFinished : Bool) : α × Bool :=
  let amplitude := envamp time self.env n.on_ n.off
  let isNoteFinished := if amplitude ≤ 0.0 then true else isNoteFinished
  let sound : α :=
    1.00 * oscillator L rand (n.on_ - time) (scale (n.id + 4) SCALE_DEFAULT) SINE_WAVE 0.0 0.0
    + 0.8 * oscillator L rand (n.on_ - time) (scale (n.id + 4) SCALE_DEFAULT) SINE_WAVE 0.0 0.0
    + 0.08 * oscillator L rand (n.on_ - time) (scale n.id SCALE_DEFAULT) TRIANGLE_WAVE 0.0 0.0
  (amplitude * sound * self.volume, isNoteFinished)

/-- The template `safe_remove` (main.cpp 308-318): erase every element on which
`f` is false, keeping the others in order. -/
def safe_remove {T : Type} (v : List T) (f : T → Bool) : List T :=
  match v with
  | [] => []
  | n :: rest => if !f n then safe_remove rest f else n :: safe_remove rest f

/-- The `switch (num)` of `MakeNoise` (main.cpp 329-353): `dSound` and
`bNoteFinished` for one note. -/
def MakeNoise.dispatch (L : Libm α) (rand : Int) (dTime : α) (n : note α) : α × Bool :=
  let bNoteFinished := false
  let num := n.channel
  if num = 1 then
    let r := instrument_harmonica.createSound instHarm L rand dTime n bNoteFinished
    (r.1 * 0.5, r.2)
  else if num = 2 then
    instrument_bell.createSound instBell L rand dTime n bNoteFinished
  else if num = 3 then
    let r := instrument_harpsichord.createSound instHpchord L rand dTime n bNoteFinished
    (r.1 * 0.5, r.2)
  else if num = 4 then
    instrument_bass.createSound instBass L rand dTime n bNoteFinished
  else if num = 5 then
    instrument_ocarina.createSound instOcar L rand dTime n bNoteFinished
  else
    (0, bNoteFinished)

/-- The `for (auto& n : vecNotes)` loop of `MakeNoise` (main.cpp 327-359), from
the note at position `i` on: the running sum and the notes with their `active`
flag updated.  `rand i` is the result of the `rand()` call made for the note at
position `i`. -/
def MakeNoise.loop (L : Libm α) (rand : Nat → Int) (dTime : α) :
    Nat → List (note α) → α → α × List (note α)
  | _, [], dMixedOutput => (dMixedOutput, [])
  | i, n :: rest, dMixedOutput =>
    let r := MakeNoise.dispatch L (rand i) dTime n
    let dMixedOutput := dMixedOutput + r.1
    let n1 : note α := if r.2 ∧ n.off > n.on_ then { n with active := false } else n
    let out := MakeNoise.loop L rand dTime (i + 1) rest dMixedOutput
    (out.1, n1 :: out.2)

/-- The function `MakeNoise` (main.cpp 322-366): the returned sample and the
registry it leaves behind. -/
def MakeNoise (L : Libm α) (rand : Nat → Int) (vecNotes : List (note α))
    (nChannel : Int) (dTime : α) : α × List (note α) :=
  let _ := nChannel
  let out := MakeNoise.loop L rand dTime 0 vecNotes 0.0
  (out.1 * 0.2, safe_remove out.2 (fun item => item.active))

/-- The element `noteFound` points to is replaced by `g` of it: the first note
whose id is `k`. -/
def updateFound (k : Int) (g : note α → note α) : List (note α) → List (note α)
  | [] => []
  | n :: rest => if n.id = k then g n :: rest else n :: updateFound k g rest

/-- One pass of the body of the key loop of `main` (main.cpp 471-520) for key
`k`: `nKeyState` is the test `nKeyState & 0x8000`, `dTimeNow` the value of
`sound.GetTime()`, `selectorChan` the current instrument selector. -/
def keyStep (vecNotes : List (note α)) (k : Int) (nKeyState : Bool) (dTimeNow : α)
    (selectorChan : Int) : List (note α) :=
  match vecNotes.find? (fun item => item.id = k) with
  | none =>
    if nKeyState then
      vecNotes ++ [{ (note.new : note α) with
        id := k, on_ := dTimeNow, channel := selectorChan, active := true }]
    else
      vecNotes
  | some _ =>
    if nKeyState then
      updateFound k (fun noteFound =>
        if noteFound.off > noteFound.on_ then
          { noteFound with on_ := dTimeNow, active := true }
        else noteFound) vecNotes
    else
      updateFound k (fun noteFound =>
        if noteFound.off < noteFound.on_ then { noteFound with off := dTimeNow }
        else noteFound) vecNotes

/-- The level set by the three consecutive `if` statements of
`envelope_synth::amplitude` for a given `lifeTime`; used to state lemmas only. -/
def adsLevel (e : envelope_synth α) (lifeTime : α) : α :=
  if lifeTime > (e.attackTime + e.decayTime) then e.sustainAmplitude
  else if lifeTime > e.attackTime ∧ lifeTime ≤ (e.attackTime + e.decayTime) then
    ((lifeTime - e.attackTime) / e.decayTime)
      * (e.sustainAmplitude - e.startAmplitude) + e.startAmplitude
  else if lifeTime ≤ e.attackTime then (lifeTime / e.attackTime) * e.startAmplitude
  else 0

/-- The final clamp of `envelope_synth::amplitude`. -/
def clampZero (x : α) : α := if x ≤ 0 then 0 else x

/-- The instrument the `switch (num)` of `MakeNoise` sends a selector to; `none`
is the `default:` case.  Used to state lemmas only. -/
def instrumentFor (num : Int) : Option (instrument α) :=
  if num = 1 then some instHarm
  else if num = 2 then some instBell
  else if num = 3 then some instHpchord
  else if num = 4 then some instBass
  else if num = 5 then some instOcar
  else none

/-- The value of `bNoteFinished` after the `switch (num)` of `MakeNoise`: the
selector has an instrument and that instrument's envelope amplitude is `<= 0`. -/
def noteFinished (dTime : α) (n : note α) : Bool :=
  match instrumentFor n.channel with
  | some inst => decide (envamp dTime inst.env n.on_ n.off ≤ 0)
  | none => false

/-- The update `if (bNoteFinished && n.off > n.on) n.active = false;` of
`MakeNoise`. -/
def markFinished (dTime : α) (n : note α) : note α :=
  if noteFinished dTime n = true ∧ n.off > n.on_ then { n with active := false } else n

/-- A rational lower bound of `sin (n * π / 50)` for `1 <= n <= 49`: the chords
of the sine through `0`, `π/6` and `π/2`, mirrored at `π/2`.  Used to bound the
sawtooth sum from below. -/
def sawChord (n : ℕ) : ℚ :=
  if n ≤ 8 then 3 * (n : ℚ) / 50
  else if n ≤ 25 then 1 / 4 + 3 * (n : ℚ) / 100
  else if n ≤ 41 then 1 / 4 + 3 * (50 - (n : ℚ)) / 100
  else 3 * (50 - (n : ℚ)) / 50

/-- Three ocarina notes (keys 0, 1, 2 pressed one after the other under selector
5 on an empty registry), each pressed `37.75` periods of its main voice before
time 1. -/
def overloadNotes (α : Type) [LinearOrderedField α] : List (note α) :=
  keyStep
    (keyStep
      (keyStep [] 0 true (1 - (151 / 4) / scale 4 SCALE_DEFAULT) 5)
      1 true (1 - (151 / 4) / scale 5 SCALE_DEFAULT) 5)
    2 true (1 - (151 / 4) / scale 6 SCALE_DEFAULT) 5

/-- One atomic step on the registry, as serialised by the mutex `muxNotes`: a
pass of the body of the key loop of `main` for one key, or one call of
`MakeNoise` by the audio thread. -/
inductive Event (α : Type) where
  | key (k : Int) (nKeyState : Bool) (dTimeNow : α) (selectorChan : Int)
  | render (rand : Nat → Int) (nChannel : Int) (dTime : α)

/-- The registry after one step. -/
def step (L : Libm α) (vecNotes : List (note α)) : Event α → List (note α)
  | Event.key k nKeyState dTimeNow selectorChan =>
    keyStep vecNotes k nKeyState dTimeNow selectorChan
  | Event.render rand nChannel dTime => (MakeNoise L rand vecNotes nChannel dTime).2

/-- The registry after a sequence of steps; the states reachable by the program
are `run L [] events`. -/
def run (L : Libm α) (vecNotes : List (note α)) (events : List (Event α)) :
    List (note α) :=
  events.foldl (step L) vecNotes

/-- The function `scale` (main.cpp 75-82) with the C library function `pow` as a
parameter; `scale` is the instance with the exact power.  The product with 256,
a power of two, is exact in doubles. -/
def scaleWith (pow : α → Int → α) (nNoteID : Int) (nScaleID : Int) : α :=
  if nScaleID = SCALE_DEFAULT then 256 * pow (TWO_TWELFTH_ROOT α) nNoteID
  else 256 * pow (TWO_TWELFTH_ROOT α) nNoteID

/-- Rounding of a rational to the nearest integer, ties to the even one. -/
def roundEven (q : ℚ) : ℤ :=
  if q - ⌊q⌋ < 1 / 2 then ⌊q⌋
  else if 1 / 2 < q - ⌊q⌋ then ⌊q⌋ + 1
  else if ⌊q⌋ % 2 = 0 then ⌊q⌋ else ⌊q⌋ + 1

/-- IEEE 754 binary64 rounding (to nearest, ties to even) of a positive
rational: 53 significant bits, exponent range unbounded. -/
def fl64pos (x : ℚ) : ℚ :=
  (roundEven (x / 2 ^ (Int.log 2 x - 52)) : ℚ) * 2 ^ (Int.log 2 x - 52)

/-- IEEE 754 binary64 rounding (to nearest, ties to even) of a rational: the
double that the result of an arithmetic operation on doubles is stored as. -/
def fl64 (x : ℚ) : ℚ :=
  if 0 < x then fl64pos x else if x < 0 then -fl64pos (-x) else 0

/-- What the envelope needs of a rounding function: it is monotone, leaves its
own values, 0 and 1 unchanged, and commutes with negation. -/
structure Rounding (fl : α → α) : Prop where
  mono : ∀ x y, x ≤ y → fl x ≤ fl y
  idem : ∀ x, fl (fl x) = fl x
  neg : ∀ x, fl (-x) = -fl x
  zero : fl 0 = 0
  one : fl 1 = 1

/-- A parameter set as stored in doubles: every field is rounded. -/
def envelope_synth.stored (fl : α → α) (e : envelope_synth α) : envelope_synth α where
  attackTime := fl e.attackTime
  decayTime := fl e.decayTime
  releaseTime := fl e.releaseTime
  sustainAmplitude := fl e.sustainAmplitude
  startAmplitude := fl e.startAmplitude

/-- The method `envelope_synth::amplitude` (main.cpp 106-147) with the result of
every arithmetic operation rounded by `fl`; with `fl = id` it is
`envelope_synth.amplitude`. -/
def envelope_synth.amplitudeR (fl : α → α) (e : envelope_synth α)
    (time timeOn timeOff : α) : α :=
  let amplitude : α :=
    if timeOn > timeOff then
      let lifeTime := fl (time - timeOn)
      let amplitude1 : α :=
        if lifeTime ≤ e.attackTime then fl (fl (lifeTime / e.attackTime) * e.startAmplitude)
        else 0.0
      let amplitude2 : α :=
        if lifeTime > e.attackTime ∧ lifeTime ≤ fl (e.attackTime + e.decayTime) then
          fl (fl (fl (fl (lifeTime - e.attackTime) / e.decayTime)
            * fl (e.sustainAmplitude - e.startAmplitude)) + e.startAmplitude)
        else amplitude1
      if lifeTime > fl (e.attackTime + e.decayTime) then e.sustainAmplitude
      else amplitude2
    else
      let lifeTime := fl (timeOff - timeOn)
      let releaseAmplitude1 : α :=
        if lifeTime ≤ e.attackTime then fl (fl (lifeTime / e.attackTime) * e.startAmplitude)
        else 0.0
      let releaseAmplitude2 : α :=
        if lifeTime > e.attackTime ∧ lifeTime ≤ fl (e.attackTime + e.decayTime) then
          fl (fl (fl (fl (lifeTime - e.attackTime) / e.decayTime)
            * fl (e.sustainAmplitude - e.startAmplitude)) + e.startAmplitude)
        else releaseAmplitude1
      let releaseAmplitude : α :=
        if lifeTime > fl (e.attackTime + e.decayTime) then e.sustainAmplitude
        else releaseAmplitude2
      fl (fl (fl (fl (time - timeOff) / e.releaseTime) * fl (0.0 - releaseAmplitude))
        + releaseAmplitude)
  if amplitude ≤ 0.000 then 0.0 else amplitude

/-- The level set by the three consecutive `if` statements of
`envelope_synth.amplitudeR` for a given `lifeTime`; used to state lemmas only. -/
def adsLevelR (fl : α → α) (e : envelope_synth α) (lifeTime : α) : α :=
  if lifeTime > fl (e.attackTime + e.decayTime) then e.sustainAmplitude
  else if lifeTime > e.attackTime ∧ lifeTime ≤ fl (e.attackTime + e.decayTime) then
    fl (fl (fl (fl (lifeTime - e.attackTime) / e.decayTime)
      * fl (e.sustainAmplitude - e.startAmplitude)) + e.startAmplitude)
  else if lifeTime ≤ e.attackTime then fl (fl (lifeTime / e.attackTime) * e.startAmplitude)
  else 0

end Model

/-! ## Properties of the envelope -/

section Envelope

variable {α : Type} [LinearOrderedField α]

theorem clampZero_nonneg (x : α) : 0 ≤ clampZero x := by
  unfold clampZero
  split_ifs with h
  · exact le_refl 0
  · exact (not_le.mp h).le

theorem clampZero_le {x b : α} (hb : 0 ≤ b) (h : x ≤ b) : clampZero x ≤ b := by
  unfold clampZero
  split_ifs <;> assumption

theorem amplitude_held (e : envelope_synth α) (time timeOn timeOff : α)
    (h : timeOn > timeOff) :
    e.amplitude time timeOn timeOff = clampZero (adsLevel e (time - timeOn)) := by
  simp only [envelope_synth.amplitude, adsLevel, clampZero, if_pos h]
  norm_num

theorem amplitude_released (e : envelope_synth α) (time timeOn timeOff : α)
    (h : ¬ timeOn > timeOff) :
    e.amplitude time timeOn timeOff
      = clampZero (((time - timeOff) / e.releaseTime) * (0 - adsLevel e (timeOff - timeOn))
          + adsLevel e (timeOff - timeOn)) := by
  simp only [envelope_synth.amplitude, adsLevel, clampZero, if_neg h]
  norm_num

theorem amplitude_nonneg (e : envelope_synth α) (time timeOn timeOff : α) :
    0 ≤ e.amplitude time timeOn timeOff := by
  by_cases h : timeOn > timeOff
  · rw [amplitude_held e _ _ _ h]; exact clampZero_nonneg _
  · rw [amplitude_released e _ _ _ h]; exact clampZero_nonneg _

/-- For a well-formed parameter set the level lies between 0 and 1 at every
non-negative life time. -/
theorem adsLevel_range (e : envelope_synth α) (ha : 0 < e.attackTime)
    (hs0 : 0 ≤ e.sustainAmplitude) (hs1 : e.sustainAmplitude ≤ 1)
    (hb0 : 0 ≤ e.startAmplitude) (hb1 : e.startAmplitude ≤ 1)
    (life : α) (hl : 0 ≤ life) :
    0 ≤ adsLevel e life ∧ adsLevel e life ≤ 1 := by
  unfold adsLevel
  split_ifs with h1 h2 h3
  · exact ⟨hs0, hs1⟩
  · obtain ⟨h2a, h2b⟩ := h2
    have hd : 0 < e.decayTime := by linarith
    have hx0 : 0 ≤ (life - e.attackTime) / e.decayTime :=
      div_nonneg (by linarith) hd.le
    have hx1 : (life - e.attackTime) / e.decayTime ≤ 1 := by
      rw [div_le_one hd]; linarith
    constructor
    · nlinarith
    · nlinarith
  · have hx0 : 0 ≤ life / e.attackTime := div_nonneg hl ha.le
    have hx1 : life / e.attackTime ≤ 1 := by
      rw [div_le_one ha]; exact h3
    constructor
    · exact mul_nonneg hx0 hb0
    · calc life / e.attackTime * e.startAmplitude ≤ 1 * 1 :=
          mul_le_mul hx1 hb1 hb0 zero_le_one
        _ = 1 := one_mul 1
  · exact ⟨le_refl 0, zero_le_one⟩

/-- For a well-formed parameter set and well-formed timestamps the amplitude is at
most 1. -/
theorem amplitude_le_one (e : envelope_synth α) (ha : 0 < e.attackTime)
    (hr : 0 < e.releaseTime)
    (hs0 : 0 ≤ e.sustainAmplitude) (hs1 : e.sustainAmplitude ≤ 1)
    (hb0 : 0 ≤ e.startAmplitude) (hb1 : e.startAmplitude ≤ 1)
    (time timeOn timeOff : α) (hon : timeOn ≤ time) (hoff : timeOff ≤ time) :
    e.amplitude time timeOn timeOff ≤ 1 := by
  by_cases h : timeOn > timeOff
  · rw [amplitude_held e _ _ _ h]
    exact clampZero_le zero_le_one
      (adsLevel_range e ha hs0 hs1 hb0 hb1 _ (by linarith)).2
  · rw [amplitude_released e _ _ _ h]
    obtain ⟨l0, l1⟩ := adsLevel_range e ha hs0 hs1 hb0 hb1 (timeOff - timeOn)
      (by linarith [not_lt.mp h])
    have hx0 : 0 ≤ (time - timeOff) / e.releaseTime := div_nonneg (by linarith) hr.le
    apply clampZero_le zero_le_one
    nlinarith

/-- C2: for each of the five instrument envelopes the amplitude is never
negative, whatever the timestamps, and it is at most 1 when `time` is not
earlier than `timeOn` and `timeOff`. -/
theorem amplitude_range_instruments (e : envelope_synth α)
    (he : e ∈ [(instBell : instrument α).env, (instHarm : instrument α).env,
      (instHpchord : instrument α).env, (instBass : instrument α).env,
      (instOcar : instrument α).env])
    (time timeOn timeOff : α) :
    0 ≤ e.amplitude time timeOn timeOff ∧
      (timeOn ≤ time → timeOff ≤ time → e.amplitude time timeOn timeOff ≤ 1) := by
  refine ⟨amplitude_nonneg e time timeOn timeOff, fun hon hoff => ?_⟩
  simp only [List.mem_cons, List.mem_singleton, List.not_mem_nil, or_false] at he
  rcases he with h | h | h | h | h <;> subst h <;>
    apply amplitude_le_one _ _ _ _ _ _ _ _ _ _ hon hoff <;>
    norm_num [instBell, instHarm, instHpchord, instBass, instOcar, envelope_synth.new]

/-- Witness of C2: the bell envelope, pressed at 1/2 and read at 1. -/
theorem amplitude_range_instruments_witness :
    0 ≤ ((instBell : instrument ℚ).env).amplitude 1 (1 / 2) 0 ∧
      ((instBell : instrument ℚ).env).amplitude 1 (1 / 2) 0 ≤ 1 :=
  ⟨(amplitude_range_instruments (instBell : instrument ℚ).env (by simp) 1 (1 / 2) 0).1,
    (amplitude_range_instruments (instBell : instrument ℚ).env (by simp) 1 (1 / 2) 0).2
      (by norm_num) (by norm_num)⟩

/-- C10: with a positive release time, the amplitude of a note still held at the
instant `r` equals the amplitude of the same note released at `r`, read at `r`. -/
theorem amplitude_continuous_at_release (e : envelope_synth α)
    (hrel : 0 < e.releaseTime) (timeOn timeOff0 r : α)
    (h0 : timeOff0 < timeOn) (hr : timeOn < r) :
    e.amplitude r timeOn timeOff0 = e.amplitude r timeOn r := by
  have _ := hrel
  rw [amplitude_held e r timeOn timeOff0 h0,
    amplitude_released e r timeOn r (not_lt.mpr hr.le)]
  simp

/-- Witness of C10: the harmonica envelope pressed at 1 and released at 3/2. -/
theorem amplitude_continuous_at_release_witness :
    ((instHarm : instrument ℚ).env).amplitude (3 / 2) 1 0
      = ((instHarm : instrument ℚ).env).amplitude (3 / 2) 1 (3 / 2) :=
  amplitude_continuous_at_release (instHarm : instrument ℚ).env
    (by norm_num [instHarm, envelope_synth.new]) 1 0 (3 / 2) (by norm_num) (by norm_num)

end Envelope

/-! ## Properties of the scale -/

section Scale

variable {α : Type} [LinearOrderedField α]

theorem TWO_TWELFTH_ROOT_pos : 0 < TWO_TWELFTH_ROOT α := by
  unfold TWO_TWELFTH_ROOT; norm_num

theorem scale_eq (nNoteID nScaleID : Int) :
    (scale nNoteID nScaleID : α) = 256 * TWO_TWELFTH_ROOT α ^ nNoteID := by
  unfold scale; split_ifs <;> rfl

theorem scale_pos (nNoteID nScaleID : Int) : 0 < (scale nNoteID nScaleID : α) := by
  rw [scale_eq]
  exact mul_pos (by norm_num) (zpow_pos TWO_TWELFTH_ROOT_pos _)

theorem scaleWith_eq (pow : α → Int → α) (nNoteID nScaleID : Int) :
    scaleWith pow nNoteID nScaleID = 256 * pow (TWO_TWELFTH_ROOT α) nNoteID := by
  unfold scaleWith; split_ifs <;> rfl

/-- The function `scale` is `scaleWith` at the exact power. -/
theorem scale_eq_scaleWith (nNoteID nScaleID : Int) :
    (scale nNoteID nScaleID : α) = scaleWith (fun x n => x ^ n) nNoteID nScaleID := by
  rw [scale_eq, scaleWith_eq]

/-- The twelfth power of the stored constant exceeds 2 by a little more than
`10^-15`. -/
theorem TWO_TWELFTH_ROOT_pow_twelve :
    (2 : α) + 1025 / 10 ^ 18 < TWO_TWELFTH_ROOT α ^ (12 : ℕ) ∧
      TWO_TWELFTH_ROOT α ^ (12 : ℕ) < 2 + 1026 / 10 ^ 18 := by
  unfold TWO_TWELFTH_ROOT
  constructor <;> norm_num

/-- C4 amended: with the constant as the stored double and a `pow` whose
relative error is at most `2^-52`, the frequency twelve steps up is strictly
greater than twice the frequency, and exceeds it by less than `10^-14` times the
frequency: the octave relation holds within floating-point tolerance, not
exactly. -/
theorem scale_octave (pow : α → Int → α)
    (hpow : ∀ n : Int, |pow (TWO_TWELFTH_ROOT α) n - TWO_TWELFTH_ROOT α ^ n|
      ≤ TWO_TWELFTH_ROOT α ^ n / 2 ^ 52)
    (nNoteID nScaleID : Int) :
    scaleWith pow nNoteID nScaleID * 2 < scaleWith pow (nNoteID + 12) nScaleID ∧
      scaleWith pow (nNoteID + 12) nScaleID - scaleWith pow nNoteID nScaleID * 2
        < scaleWith pow nNoteID nScaleID * (1 / 10 ^ 14) := by
  have hq : TWO_TWELFTH_ROOT α ≠ 0 := TWO_TWELFTH_ROOT_pos.ne.symm
  obtain ⟨c1, c2⟩ := TWO_TWELFTH_ROOT_pow_twelve (α := α)
  have hP : 0 < TWO_TWELFTH_ROOT α ^ nNoteID := zpow_pos TWO_TWELFTH_ROOT_pos _
  have e12 : TWO_TWELFTH_ROOT α ^ (nNoteID + 12)
      = TWO_TWELFTH_ROOT α ^ nNoteID * TWO_TWELFTH_ROOT α ^ (12 : ℕ) := by
    rw [zpow_add₀ hq]; norm_cast
  have ha := abs_le.mp (hpow nNoteID)
  have hb := abs_le.mp (hpow (nNoteID + 12))
  rw [e12] at hb
  have hu : (2 : α) ^ 52 = 4503599627370496 := by norm_num
  rw [hu] at ha hb
  rw [scaleWith_eq, scaleWith_eq]
  generalize TWO_TWELFTH_ROOT α ^ nNoteID = P at hP ha hb
  generalize TWO_TWELFTH_ROOT α ^ (12 : ℕ) = c at c1 c2 hb
  generalize pow (TWO_TWELFTH_ROOT α) nNoteID = a at ha
  generalize pow (TWO_TWELFTH_ROOT α) (nNoteID + 12) = b at hb
  have k1 : P * (2 + 1025 / 10 ^ 18) < P * c := mul_lt_mul_of_pos_left c1 hP
  have k2 : P * c < P * (2 + 1026 / 10 ^ 18) := mul_lt_mul_of_pos_left c2 hP
  obtain ⟨ha1, ha2⟩ := ha
  obtain ⟨hb1, hb2⟩ := hb
  rw [div_eq_mul_inv] at ha1 ha2 hb1 hb2
  norm_num at ha1 ha2 hb1 hb2 k1 k2 ⊢
  constructor <;> linarith

end Scale

/-! ## Properties of the render pass -/

section Render

variable {α : Type} [LinearOrderedField α]

theorem safe_remove_eq_filter {T : Type} (v : List T) (f : T → Bool) :
    safe_remove v f = v.filter f := by
  induction v with
  | nil => rfl
  | cons n rest ih =>
    unfold safe_remove
    cases h : f n <;> simp [h, ih]

theorem instrumentFor_eq_some_iff (num : Int) :
    (∃ inst : instrument α, instrumentFor num = some inst) ↔ 1 ≤ num ∧ num ≤ 5 := by
  unfold instrumentFor
  constructor
  · rintro ⟨inst, h⟩
    split_ifs at h <;> omega
  · rintro ⟨h1, h5⟩
    have : num = 1 ∨ num = 2 ∨ num = 3 ∨ num = 4 ∨ num = 5 := by omega
    rcases this with h | h | h | h | h <;> subst h <;> simp

theorem dispatch_finished (L : Libm α) (rand : Int) (dTime : α) (n : note α) :
    (MakeNoise.dispatch L rand dTime n).2 = noteFinished dTime n := by
  unfold MakeNoise.dispatch noteFinished instrumentFor
  simp only []
  have h0 : (0.0 : α) = 0 := by norm_num
  split_ifs <;>
    simp [instrument_harmonica.createSound, instrument_bell.createSound,
      instrument_harpsichord.createSound, instrument_bass.createSound,
      instrument_ocarina.createSound, h0]

theorem loop_notes (L : Libm α) (rand : Nat → Int) (dTime : α) (v : List (note α)) :
    ∀ (i : Nat) (acc : α),
      (MakeNoise.loop L rand dTime i v acc).2 = v.map (markFinished dTime) := by
  induction v with
  | nil => intro i acc; rfl
  | cons n rest ih =>
    intro i acc
    simp only [MakeNoise.loop, List.map_cons, ih, dispatch_finished, markFinished]

theorem MakeNoise_notes (L : Libm α) (rand : Nat → Int) (v : List (note α))
    (nChannel : Int) (dTime : α) :
    (MakeNoise L rand v nChannel dTime).2
      = (v.map (markFinished dTime)).filter (fun item => item.active) := by
  simp only [MakeNoise, loop_notes, safe_remove_eq_filter]

theorem noteFinished_iff (dTime : α) (n : note α) :
    noteFinished dTime n = true ↔
      ∃ inst : instrument α, instrumentFor n.channel = some inst ∧
        inst.env.amplitude dTime n.on_ n.off ≤ 0 := by
  unfold noteFinished envamp
  cases h : (instrumentFor n.channel : Option (instrument α)) with
  | none => simp
  | some inst => simp

theorem markFinished_active (dTime : α) (n : note α)
    (h : (markFinished dTime n).active = true) : markFinished dTime n = n := by
  unfold markFinished at h ⊢
  by_cases hc : noteFinished dTime n = true ∧ n.off > n.on_
  · rw [if_pos hc] at h
    exact absurd h (by simp)
  · rw [if_neg hc]

theorem markFinished_active_iff (dTime : α) (n : note α) (hn : n.active = true) :
    (markFinished dTime n).active = true ↔
      ¬ (noteFinished dTime n = true ∧ n.off > n.on_) := by
  unfold markFinished
  split_ifs with hc
  · simp [hc]
  · simp only [hn, true_iff]; exact hc

/-- C8: a released note whose selector has an instrument (the selector is one of
1..5) and whose envelope amplitude at `dTime` is 0 is not in the registry left by
the render pass at `dTime`. -/
theorem MakeNoise_removes_finished (L : Libm α) (rand : Nat → Int) (v : List (note α))
    (nChannel : Int) (dTime : α) (n : note α) (inst : instrument α)
    (hn : n ∈ v) (hsel : 1 ≤ n.channel ∧ n.channel ≤ 5)
    (hinst : instrumentFor n.channel = some inst)
    (hrel : n.off > n.on_) (hamp : inst.env.amplitude dTime n.on_ n.off = 0) :
    n ∉ (MakeNoise L rand v nChannel dTime).2 := by
  have _ := hn
  have _ := hsel
  rw [MakeNoise_notes]
  intro hmem
  obtain ⟨hmap, hact⟩ := List.mem_filter.mp hmem
  obtain ⟨m, _, hm⟩ := List.mem_map.mp hmap
  have hmm : markFinished dTime m = m := markFinished_active dTime m (by rw [hm]; exact hact)
  have hmn : m = n := by rw [← hmm]; exact hm
  subst hmn
  have hfin : noteFinished dTime m = true :=
    (noteFinished_iff dTime m).mpr ⟨inst, hinst, hamp.le⟩
  have hact2 : (markFinished dTime m).active = true := by rw [hm]; exact hact
  unfold markFinished at hact2
  rw [if_pos ⟨hfin, hrel⟩] at hact2
  simp at hact2

/-- Witness of C8: a bell note pressed at 1, released at 2 and rendered at 7/2. -/
theorem MakeNoise_removes_finished_witness :
    (⟨0, 1, 2, true, 2⟩ : note ℚ) ∉
      (MakeNoise (Libm.mk (fun _ => 0) (fun _ => 0) 3 32767) (fun _ => 0)
        [(⟨0, 1, 2, true, 2⟩ : note ℚ)] 0 (7 / 2)).2 :=
  MakeNoise_removes_finished _ _ _ 0 (7 / 2) ⟨0, 1, 2, true, 2⟩ instBell
    (by simp) (by decide) (by simp [instrumentFor]) (by norm_num)
    (by norm_num [envelope_synth.amplitude, instBell, envelope_synth.new])

/-- C9: when every note is marked active, the render pass at `dTime` leaves
exactly the notes that are not both released and finished, unchanged and in their
order; so every removed note was released and its instrument's envelope amplitude
was `<= 0`, and a held note is never removed. -/
theorem MakeNoise_prunes_only_released_finished (L : Libm α) (rand : Nat → Int)
    (v : List (note α)) (nChannel : Int) (dTime : α)
    (hact : ∀ n ∈ v, n.active = true) :
    (MakeNoise L rand v nChannel dTime).2
        = v.filter (fun n => !(noteFinished dTime n && decide (n.off > n.on_))) ∧
      (∀ n ∈ v, n ∉ (MakeNoise L rand v nChannel dTime).2 →
        n.off > n.on_ ∧ ∃ inst : instrument α,
          instrumentFor n.channel = some inst ∧
            inst.env.amplitude dTime n.on_ n.off ≤ 0) ∧
      (∀ n ∈ v, n.on_ > n.off → n ∈ (MakeNoise L rand v nChannel dTime).2) ∧
      (∀ n ∈ v, n.on_ = n.off → n ∈ (MakeNoise L rand v nChannel dTime).2) := by
  have hfilter : (MakeNoise L rand v nChannel dTime).2
      = v.filter (fun n => !(noteFinished dTime n && decide (n.off > n.on_))) := by
    rw [MakeNoise_notes]
    clear L rand nChannel
    induction v with
    | nil => rfl
    | cons m rest ih =>
      have hm : m.active = true := hact m (List.mem_cons_self _ _)
      have ih2 := ih (fun n hn => hact n (List.mem_cons_of_mem _ hn))
      rw [List.map_cons, List.filter_cons, List.filter_cons, ih2]
      by_cases hc : noteFinished dTime m = true ∧ m.off > m.on_
      · have h1 : (markFinished dTime m).active = false := by
          simp [markFinished, hc]
        simp [h1, hc.1, hc.2]
      · have h1 : (markFinished dTime m).active = true :=
          (markFinished_active_iff dTime m hm).mpr hc
        have h2 : markFinished dTime m = m := markFinished_active dTime m h1
        have h3 : (!(noteFinished dTime m && decide (m.off > m.on_))) = true := by
          simp only [Bool.not_eq_true', Bool.and_eq_false_imp, decide_eq_false_iff_not]
          intro hf hr
          exact hc ⟨hf, hr⟩
        rw [if_pos h1, if_pos h3, h2]
  refine ⟨hfilter, ?_, ?_, ?_⟩
  · intro n hn hnot
    rw [hfilter, List.mem_filter] at hnot
    have hc : noteFinished dTime n = true ∧ n.off > n.on_ := by
      by_contra hcon
      apply hnot
      refine ⟨hn, ?_⟩
      simp only [Bool.not_eq_true', Bool.and_eq_false_imp, decide_eq_false_iff_not]
      intro hf hr
      exact hcon ⟨hf, hr⟩
    exact ⟨hc.2, (noteFinished_iff dTime n).mp hc.1⟩
  · intro n hn hheld
    rw [hfilter, List.mem_filter]
    refine ⟨hn, ?_⟩
    simp only [Bool.not_eq_true', Bool.and_eq_false_imp, decide_eq_false_iff_not]
    intro _
    exact not_lt.mpr hheld.le
  · intro n hn heq
    rw [hfilter, List.mem_filter]
    refine ⟨hn, ?_⟩
    simp only [Bool.not_eq_true', Bool.and_eq_false_imp, decide_eq_false_iff_not]
    intro _
    exact not_lt.mpr heq.ge

/-- Witness of C9: a held bell note pressed at 1 and rendered at 1, where its
amplitude is 0, stays in the registry. -/
theorem MakeNoise_prunes_only_released_finished_witness :
    (⟨0, 1, 0, true, 2⟩ : note ℚ) ∈
      (MakeNoise (Libm.mk (fun _ => 0) (fun _ => 0) 3 32767) (fun _ => 0)
        [(⟨0, 1, 0, true, 2⟩ : note ℚ)] 0 1).2 :=
  (MakeNoise_prunes_only_released_finished
    (Libm.mk (fun _ => 0) (fun _ => 0) 3 32767) (fun _ => 0)
    [(⟨0, 1, 0, true, 2⟩ : note ℚ)] 0 1 (by simp)).2.2.1 ⟨0, 1, 0, true, 2⟩ (by simp)
    (by norm_num)

/-- A note with `on = off` is neither held nor released: the render pass keeps
a registry made of one such active note as it is. -/
theorem MakeNoise_keeps_unreleased_single (L : Libm α) (rand : Nat → Int)
    (n : note α) (nChannel : Int) (dTime : α) (hact : n.active = true)
    (heq : n.on_ = n.off) :
    (MakeNoise L rand [n] nChannel dTime).2 = [n] := by
  rw [MakeNoise_notes]
  have hm : markFinished dTime n = n := by
    unfold markFinished
    rw [if_neg]
    intro hc
    exact absurd hc.2 (not_lt.mpr heq.ge)
  simp [hm, hact]

end Render

/-! ## Properties of the key steps -/

section Keys

set_option linter.unusedSectionVars false

variable {α : Type} [LinearOrderedField α]

theorem find_none_iff (v : List (note α)) (k : Int) :
    v.find? (fun item => decide (item.id = k)) = none ↔ ∀ n ∈ v, n.id ≠ k := by
  simp [List.find?_eq_none]

theorem keyStep_absent (v : List (note α)) (k : Int) (nKeyState : Bool) (t : α)
    (sel : Int) (h : ∀ n ∈ v, n.id ≠ k) :
    keyStep v k nKeyState t sel
      = if nKeyState then v ++ [⟨k, t, 0, true, sel⟩] else v := by
  have h0 : (0.0 : α) = 0 := by norm_num
  unfold keyStep
  rw [(find_none_iff v k).mpr h]
  simp [note.new, h0]

theorem keyStep_present (v : List (note α)) (k : Int) (nKeyState : Bool) (t : α)
    (sel : Int) (m : note α) (hm : m ∈ v) (hk : m.id = k) :
    keyStep v k nKeyState t sel
      = if nKeyState then
          updateFound k (fun noteFound =>
            if noteFound.off > noteFound.on_ then
              { noteFound with on_ := t, active := true }
            else noteFound) v
        else
          updateFound k (fun noteFound =>
            if noteFound.off < noteFound.on_ then { noteFound with off := t }
            else noteFound) v := by
  unfold keyStep
  cases hf : v.find? (fun item => decide (item.id = k)) with
  | none => exact absurd hk ((find_none_iff v k).mp hf m hm)
  | some x => rfl

theorem updateFound_cons_ne (k : Int) (g : note α → note α) (n : note α)
    (rest : List (note α)) (hn : n.id ≠ k) :
    updateFound k g (n :: rest) = n :: updateFound k g rest := by
  simp only [updateFound, if_neg hn]

theorem updateFound_cons_eq (k : Int) (g : note α → note α) (n : note α)
    (rest : List (note α)) (hn : n.id = k) :
    updateFound k g (n :: rest) = g n :: rest := by
  simp only [updateFound, if_pos hn]

theorem updateFound_append (k : Int) (g : note α → note α) (v : List (note α))
    (m : note α) (h : ∀ n ∈ v, n.id ≠ k) (hm : m.id = k) :
    updateFound k g (v ++ [m]) = v ++ [g m] := by
  induction v with
  | nil => simp [updateFound, hm]
  | cons n rest ih =>
    have hn : n.id ≠ k := h n (List.mem_cons_self _ _)
    rw [List.cons_append, updateFound_cons_ne k g n _ hn,
      ih (fun x hx => h x (List.mem_cons_of_mem _ hx)), List.cons_append]

theorem updateFound_of_absent (k : Int) (g : note α → note α) (v : List (note α))
    (h : ∀ n ∈ v, n.id ≠ k) : updateFound k g v = v := by
  induction v with
  | nil => rfl
  | cons n rest ih =>
    have hn : n.id ≠ k := h n (List.mem_cons_self _ _)
    simp only [updateFound, if_neg hn]
    rw [ih (fun x hx => h x (List.mem_cons_of_mem _ hx))]

theorem map_of_absent (k : Int) (g : note α → note α) (v : List (note α))
    (h : ∀ n ∈ v, n.id ≠ k) : v.map (fun n => if n.id = k then g n else n) = v := by
  induction v with
  | nil => rfl
  | cons n rest ih =>
    have hn : n.id ≠ k := h n (List.mem_cons_self _ _)
    simp only [List.map_cons, if_neg hn]
    rw [ih (fun x hx => h x (List.mem_cons_of_mem _ hx))]

/-- With distinct ids the found note is the only note of its id, so the in-place
update is a `map`. -/
theorem updateFound_eq_map (k : Int) (g : note α → note α) (v : List (note α))
    (hd : (v.map (fun n => n.id)).Nodup) :
    updateFound k g v = v.map (fun n => if n.id = k then g n else n) := by
  induction v with
  | nil => rfl
  | cons n rest ih =>
    rw [List.map_cons, List.nodup_cons] at hd
    by_cases hn : n.id = k
    · have hrest : ∀ x ∈ rest, x.id ≠ k := by
        intro x hx hxk
        apply hd.1
        rw [hn, ← hxk]
        exact List.mem_map_of_mem (fun n => n.id) hx
      simp only [updateFound, if_pos hn, List.map_cons]
      rw [map_of_absent k g rest hrest]
    · simp only [updateFound, if_neg hn, List.map_cons]
      rw [ih hd.2]

theorem updateFound_ids (k : Int) (g : note α → note α) (hg : ∀ n, (g n).id = n.id)
    (v : List (note α)) :
    (updateFound k g v).map (fun n => n.id) = v.map (fun n => n.id) := by
  induction v with
  | nil => rfl
  | cons n rest ih =>
    by_cases hn : n.id = k
    · simp [updateFound, hn, hg]
    · simp only [updateFound, if_neg hn, List.map_cons, ih]

/-- A key step never changes the ids of the notes that were in the registry. -/
theorem keyStep_ids (v : List (note α)) (k : Int) (nKeyState : Bool) (t : α)
    (sel : Int) :
    (keyStep v k nKeyState t sel).map (fun n => n.id)
      = if nKeyState = true ∧ ∀ n ∈ v, n.id ≠ k then v.map (fun n => n.id) ++ [k]
        else v.map (fun n => n.id) := by
  by_cases h : ∀ n ∈ v, n.id ≠ k
  · rw [keyStep_absent v k nKeyState t sel h]
    cases nKeyState
    · simp
    · rw [if_pos rfl, if_pos ⟨rfl, h⟩]
      simp
  · rw [if_neg (fun hc => h hc.2)]
    push_neg at h
    obtain ⟨m, hm, hk⟩ := h
    rw [keyStep_present v k nKeyState t sel m hm hk]
    cases nKeyState
    · simp only [Bool.false_eq_true, if_false]
      apply updateFound_ids
      intro n; split_ifs <;> rfl
    · simp only [if_true]
      apply updateFound_ids
      intro n; split_ifs <;> rfl

theorem press_release_press_eq (v : List (note α)) (k s1 s2 s3 : Int) (t1 t2 t3 : α)
    (h0 : 0 < t1) (h12 : t1 < t2) (hv : ∀ n ∈ v, n.id ≠ k) :
    keyStep (keyStep (keyStep v k true t1 s1) k false t2 s2) k true t3 s3
      = v ++ [⟨k, t3, t2, true, s1⟩] := by
  rw [keyStep_absent v k true t1 s1 hv, if_pos rfl]
  rw [keyStep_present (v ++ [(⟨k, t1, 0, true, s1⟩ : note α)]) k false t2 s2
    (⟨k, t1, 0, true, s1⟩ : note α) (by simp) rfl]
  simp only [Bool.false_eq_true, if_false]
  rw [updateFound_append k _ v _ hv rfl]
  simp only [if_pos h0]
  rw [keyStep_present (v ++ [(⟨k, t1, t2, true, s1⟩ : note α)]) k true t3 s3
    (⟨k, t1, t2, true, s1⟩ : note α) (by simp) rfl]
  simp only [if_true]
  rw [updateFound_append k _ v _ hv rfl]
  simp only [gt_iff_lt, if_pos h12]

/-- C7: from a registry with no note for `k`, a press at `t1`, a release at `t2`
and a press at `t3` (`0 < t1 < t2 < t3`, no render pass in between) leave exactly
one note with id `k`; it is held and its `on` time is `t3`. -/
theorem press_release_press (v : List (note α)) (k s1 s2 s3 : Int) (t1 t2 t3 : α)
    (h0 : 0 < t1) (h12 : t1 < t2) (h23 : t2 < t3) (hv : ∀ n ∈ v, n.id ≠ k) :
    ((keyStep (keyStep (keyStep v k true t1 s1) k false t2 s2) k true t3 s3).map
        (fun n => n.id)).count k = 1 ∧
      ∀ n ∈ keyStep (keyStep (keyStep v k true t1 s1) k false t2 s2) k true t3 s3,
        n.id = k → n.on_ > n.off ∧ n.on_ = t3 := by
  rw [press_release_press_eq v k s1 s2 s3 t1 t2 t3 h0 h12 hv]
  constructor
  · have hnot : k ∉ v.map (fun n => n.id) := by
      intro hmem
      obtain ⟨x, hx, hxk⟩ := List.mem_map.mp hmem
      exact hv x hx hxk
    rw [List.map_append, List.count_append, List.count_eq_zero_of_not_mem hnot]
    simp
  · intro n hn hk
    rcases List.mem_append.mp hn with h | h
    · exact absurd hk (hv n h)
    · rw [List.mem_singleton] at h
      subst h
      exact ⟨h23, rfl⟩

/-- Witness of C7: key 3 pressed at 1, released at 2 and pressed at 3 on an empty
registry. -/
theorem press_release_press_witness :
    ((keyStep (keyStep (keyStep ([] : List (note ℚ)) 3 true 1 1) 3 false 2 1) 3 true 3 1).map
        (fun n => n.id)).count 3 = 1 ∧
      ∀ n ∈ keyStep (keyStep (keyStep ([] : List (note ℚ)) 3 true 1 1) 3 false 2 1) 3 true 3 1,
        n.id = 3 → n.on_ > n.off ∧ n.on_ = 3 :=
  press_release_press [] 3 1 1 1 1 2 3 (by norm_num) (by norm_num) (by norm_num)
    (by simp)

/-- C6 as stated fails: a press on a key whose note is already held (pressed at
1, pressed again at 2) leaves the `on` time at 1. -/
theorem keyStep_press_held_counterexample :
    (([⟨0, 1, 0, true, 1⟩] : List (note ℚ)).map (fun n => n.id)).Nodup ∧
      (0 : ℚ) ≤ 2 ∧
      (∀ n ∈ ([⟨0, 1, 0, true, 1⟩] : List (note ℚ)), n.on_ ≤ 2 ∧ n.off ≤ 2) ∧
      ¬ (∀ n ∈ keyStep ([⟨0, 1, 0, true, 1⟩] : List (note ℚ)) 0 true 2 1,
          n.id = 0 → n.on_ > n.off ∧ n.on_ = 2) := by
  refine ⟨by simp, by norm_num, by simp, ?_⟩
  rw [keyStep_present _ 0 true 2 1 ⟨0, 1, 0, true, 1⟩ (by simp) rfl]
  norm_num [updateFound]

/-- C6 amended: after a press step for key `k` at time `t` on a registry with
distinct ids, exactly one note has id `k`.  If none existed, the new note
`(k, t, 0, active, selector)` is appended; if the existing note was released it is
re-triggered in place (`on = t`, `active = true`, the rest unchanged); if it was
held the registry is unchanged.  When `0 < t` and an existing note for `k` was
released before `t`, the note for `k` is then held with `on = t`. -/
theorem keyStep_press (v : List (note α)) (hd : (v.map (fun n => n.id)).Nodup)
    (k : Int) (t : α) (sel : Int) :
    ((keyStep v k true t sel).map (fun n => n.id)).count k = 1 ∧
      ((∀ n ∈ v, n.id ≠ k) → keyStep v k true t sel = v ++ [⟨k, t, 0, true, sel⟩]) ∧
      (∀ m ∈ v, m.id = k → m.off > m.on_ →
        keyStep v k true t sel
          = v.map (fun n => if n.id = k then { n with on_ := t, active := true } else n)) ∧
      (∀ m ∈ v, m.id = k → m.on_ > m.off → keyStep v k true t sel = v) ∧
      (0 < t → (∀ m ∈ v, m.id = k → m.off > m.on_ ∧ m.off < t) →
        ∀ n ∈ keyStep v k true t sel, n.id = k → n.on_ = t ∧ n.on_ > n.off) := by
  have hone : ∀ m ∈ v, m.id = k → ∀ n ∈ v, n.id = k → n = m := by
    intro m hm hmk n hn hnk
    exact List.inj_on_of_nodup_map hd hn hm (by rw [hnk, hmk])
  have hrel : ∀ m ∈ v, m.id = k → m.off > m.on_ →
      keyStep v k true t sel
        = v.map (fun n => if n.id = k then { n with on_ := t, active := true } else n) := by
    intro m hm hmk hmrel
    rw [keyStep_present v k true t sel m hm hmk, if_pos rfl, updateFound_eq_map k _ v hd]
    apply List.map_congr_left
    intro n hn
    by_cases hnk : n.id = k
    · have : n = m := hone m hm hmk n hn hnk
      subst this
      simp only [if_pos hnk, if_pos hmrel]
    · simp only [if_neg hnk]
  have habs : (∀ n ∈ v, n.id ≠ k) → keyStep v k true t sel = v ++ [⟨k, t, 0, true, sel⟩] := by
    intro h
    rw [keyStep_absent v k true t sel h, if_pos rfl]
  refine ⟨?_, habs, hrel, ?_, ?_⟩
  · rw [keyStep_ids]
    by_cases h : ∀ n ∈ v, n.id ≠ k
    · have hnot : k ∉ v.map (fun n => n.id) := by
        intro hmem
        obtain ⟨x, hx, hxk⟩ := List.mem_map.mp hmem
        exact h x hx hxk
      rw [if_pos ⟨rfl, h⟩, List.count_append, List.count_eq_zero_of_not_mem hnot]
      simp
    · rw [if_neg (fun hc => h hc.2)]
      push_neg at h
      obtain ⟨m, hm, hmk⟩ := h
      apply List.count_eq_one_of_mem hd
      rw [← hmk]
      exact List.mem_map_of_mem (fun n => n.id) hm
  · intro m hm hmk hheld
    rw [keyStep_present v k true t sel m hm hmk, if_pos rfl, updateFound_eq_map k _ v hd]
    conv_rhs => rw [← List.map_id v]
    apply List.map_congr_left
    intro n hn
    by_cases hnk : n.id = k
    · have : n = m := hone m hm hmk n hn hnk
      subst this
      simp only [if_pos hnk, if_neg (not_lt.mpr hheld.le), id]
    · simp only [if_neg hnk, id]
  · intro ht hall n hn hnk
    by_cases h : ∀ x ∈ v, x.id ≠ k
    · rw [habs h] at hn
      rcases List.mem_append.mp hn with hx | hx
      · exact absurd hnk (h n hx)
      · rw [List.mem_singleton] at hx
        subst hx
        exact ⟨rfl, ht⟩
    · push_neg at h
      obtain ⟨m, hm, hmk⟩ := h
      rw [hrel m hm hmk (hall m hm hmk).1] at hn
      obtain ⟨x, hx, hxn⟩ := List.mem_map.mp hn
      by_cases hxk : x.id = k
      · rw [if_pos hxk] at hxn
        subst hxn
        exact ⟨rfl, (hall x hx hxk).2⟩
      · rw [if_neg hxk] at hxn
        subst hxn
        exact absurd hnk hxk

/-- Witness of C6: a released note (pressed at 1, released at 2) pressed again at
3 under another selector is the one note of its key and is re-triggered in place. -/
theorem keyStep_press_witness :
    ((keyStep ([⟨0, 1, 2, true, 1⟩] : List (note ℚ)) 0 true 3 2).map
        (fun n => n.id)).count 0 = 1 ∧
      keyStep ([⟨0, 1, 2, true, 1⟩] : List (note ℚ)) 0 true 3 2
        = ([⟨0, 1, 2, true, 1⟩] : List (note ℚ)).map
            (fun n => if n.id = 0 then { n with on_ := 3, active := true } else n) :=
  ⟨(keyStep_press ([⟨0, 1, 2, true, 1⟩] : List (note ℚ)) (by simp) 0 3 2).1,
    (keyStep_press ([⟨0, 1, 2, true, 1⟩] : List (note ℚ)) (by simp) 0 3 2).2.2.1
      ⟨0, 1, 2, true, 1⟩ (by simp) rfl (by norm_num)⟩

end Keys

/-! ## The bell scenario -/

section BellScenario

/-- C5, the code at the scenario's input: pressed at time 0 the new note has
`on = off = 0`, so the release at 1/2 does not set `off`; the note's bell
amplitude is 0 at 1/2, at 51/100 and at 151/100, and the render pass at 151/100
leaves the note in the registry. -/
theorem bell_scenario_at_zero (L : Libm ℚ) (rand : Nat → Int) (nChannel : Int) :
    keyStep (keyStep ([] : List (note ℚ)) 0 true 0.0 2) 0 false 0.5 2
        = [⟨0, 0, 0, true, 2⟩] ∧
      envamp 0.5 (instBell : instrument ℚ).env 0 0 = 0 ∧
      envamp 0.51 (instBell : instrument ℚ).env 0 0 = 0 ∧
      envamp 1.51 (instBell : instrument ℚ).env 0 0 = 0 ∧
      (MakeNoise L rand
        (keyStep (keyStep ([] : List (note ℚ)) 0 true 0.0 2) 0 false 0.5 2)
        nChannel 1.51).2 = [⟨0, 0, 0, true, 2⟩] := by
  have hreg : keyStep (keyStep ([] : List (note ℚ)) 0 true 0.0 2) 0 false 0.5 2
      = [⟨0, 0, 0, true, 2⟩] := by
    rw [keyStep_absent [] 0 true 0.0 2 (by simp), if_pos rfl]
    rw [keyStep_present _ 0 false 0.5 2 (⟨0, 0.0, 0, true, 2⟩ : note ℚ) (by simp) rfl]
    norm_num [updateFound]
  refine ⟨hreg, ?_, ?_, ?_, ?_⟩
  · norm_num [envamp, envelope_synth.amplitude, instBell, envelope_synth.new]
  · norm_num [envamp, envelope_synth.amplitude, instBell, envelope_synth.new]
  · norm_num [envamp, envelope_synth.amplitude, instBell, envelope_synth.new]
  · rw [hreg]
    exact MakeNoise_keeps_unreleased_single L rand _ nChannel 1.51 rfl rfl

/-- The same scenario started at a positive time `t0` behaves as the scenario
describes: the release is recorded, the amplitude at `t0 + 0.51` is strictly
between 0 and the amplitude at `t0 + 0.5`, the amplitude at `t0 + 1.51` is 0 and
the render pass at `t0 + 1.51` removes the note. -/
theorem bell_scenario_after_zero (L : Libm ℚ) (rand : Nat → Int) (nChannel : Int)
    (t0 : ℚ) (ht0 : 0 < t0) :
    keyStep (keyStep ([] : List (note ℚ)) 0 true t0 2) 0 false (t0 + 0.5) 2
        = [⟨0, t0, t0 + 0.5, true, 2⟩] ∧
      0 < envamp (t0 + 0.51) (instBell : instrument ℚ).env t0 (t0 + 0.5) ∧
      envamp (t0 + 0.51) (instBell : instrument ℚ).env t0 (t0 + 0.5)
        < envamp (t0 + 0.5) (instBell : instrument ℚ).env t0 (t0 + 0.5) ∧
      envamp (t0 + 1.51) (instBell : instrument ℚ).env t0 (t0 + 0.5) = 0 ∧
      (MakeNoise L rand
        (keyStep (keyStep ([] : List (note ℚ)) 0 true t0 2) 0 false (t0 + 0.5) 2)
        nChannel (t0 + 1.51)).2 = [] := by
  have hreg : keyStep (keyStep ([] : List (note ℚ)) 0 true t0 2) 0 false (t0 + 0.5) 2
      = [⟨0, t0, t0 + 0.5, true, 2⟩] := by
    rw [keyStep_absent [] 0 true t0 2 (by simp), if_pos rfl]
    rw [keyStep_present _ 0 false (t0 + 0.5) 2 (⟨0, t0, 0, true, 2⟩ : note ℚ) (by simp) rfl]
    simp [updateFound, ht0]
  have hrel : ¬ t0 > t0 + 0.5 := by norm_num
  have h1 : envamp (t0 + 0.5) (instBell : instrument ℚ).env t0 (t0 + 0.5) = 51 / 100 := by
    rw [envamp, amplitude_released _ _ _ _ hrel]
    norm_num [adsLevel, clampZero, instBell, envelope_synth.new]
  have h2 : envamp (t0 + 0.51) (instBell : instrument ℚ).env t0 (t0 + 0.5)
      = 5049 / 10000 := by
    rw [envamp, amplitude_released _ _ _ _ hrel]
    norm_num [adsLevel, clampZero, instBell, envelope_synth.new]
  have h3 : envamp (t0 + 1.51) (instBell : instrument ℚ).env t0 (t0 + 0.5) = 0 := by
    rw [envamp, amplitude_released _ _ _ _ hrel]
    norm_num [adsLevel, clampZero, instBell, envelope_synth.new]
  refine ⟨hreg, ?_, ?_, h3, ?_⟩
  · rw [h2]; norm_num
  · rw [h1, h2]; norm_num
  · rw [hreg, MakeNoise_notes]
    have hfin : noteFinished (t0 + 1.51) (⟨0, t0, t0 + 0.5, true, 2⟩ : note ℚ) = true := by
      simp only [noteFinished, instrumentFor]
      simp [h3]
    have hoff : (⟨0, t0, t0 + 0.5, true, 2⟩ : note ℚ).off
        > (⟨0, t0, t0 + 0.5, true, 2⟩ : note ℚ).on_ := by
      norm_num
    simp only [List.map_cons, List.map_nil, markFinished, if_pos (And.intro hfin hoff)]
    simp

end BellScenario

/-! ## Properties of the oscillator -/

section Oscillator

open Real

theorem foldl_add_mono {α : Type} [LinearOrderedField α] (l : List ℕ) (F G : ℕ → α) :
    ∀ (a b : α), a ≤ b → (∀ n ∈ l, G n ≤ F n) →
      l.foldl (fun acc n => acc + G n) a ≤ l.foldl (fun acc n => acc + F n) b := by
  induction l with
  | nil => intro a b hab _; exact hab
  | cons m rest ih =>
    intro a b hab h
    simp only [List.foldl_cons]
    apply ih
    · exact add_le_add hab (h m (List.mem_cons_self _ _))
    · exact fun n hn => h n (List.mem_cons_of_mem _ hn)

theorem foldl_add_abs {α : Type} [LinearOrderedField α] (l : List ℕ) (F H : ℕ → α) :
    ∀ (a b : α), |a| ≤ b → (∀ n ∈ l, |F n| ≤ H n) →
      |l.foldl (fun acc n => acc + F n) a| ≤ l.foldl (fun acc n => acc + H n) b := by
  induction l with
  | nil => intro a b hab _; exact hab
  | cons m rest ih =>
    intro a b hab h
    simp only [List.foldl_cons]
    apply ih
    · exact (abs_add a (F m)).trans (add_le_add hab (h m (List.mem_cons_self _ _)))
    · exact fun n hn => h n (List.mem_cons_of_mem _ hn)

/-- The chord of the sine between `0` and `π/6`. -/
theorem sin_chord_low (y : ℝ) (h0 : 0 ≤ y) (h1 : y ≤ π / 6) : 3 / π * y ≤ sin y := by
  have hpi : 0 < π := pi_pos
  have hc := strictConcaveOn_sin_Icc.concaveOn.2
    (show (0 : ℝ) ∈ Set.Icc 0 π from ⟨le_refl 0, hpi.le⟩)
    (show π / 6 ∈ Set.Icc 0 π from ⟨by positivity, by linarith⟩)
    (show (0 : ℝ) ≤ 1 - 6 * y / π by
      rw [sub_nonneg, div_le_one hpi]; linarith)
    (show (0 : ℝ) ≤ 6 * y / π by positivity)
    (by ring)
  simp only [smul_eq_mul, sin_zero, mul_zero, zero_add, sin_pi_div_six] at hc
  have e : 6 * y / π * (π / 6) = y := by field_simp
  rw [e] at hc
  calc 3 / π * y = 6 * y / π * (1 / 2) := by ring
    _ ≤ sin y := hc

/-- The chord of the sine between `π/6` and `π/2`. -/
theorem sin_chord_high (y : ℝ) (h0 : π / 6 ≤ y) (h1 : y ≤ π / 2) :
    1 / 2 + 3 / (2 * π) * (y - π / 6) ≤ sin y := by
  have hpi : 0 < π := pi_pos
  have hc := strictConcaveOn_sin_Icc.concaveOn.2
    (show π / 6 ∈ Set.Icc 0 π from ⟨by positivity, by linarith⟩)
    (show π / 2 ∈ Set.Icc 0 π from ⟨by positivity, by linarith⟩)
    (show (0 : ℝ) ≤ 1 - (y - π / 6) / (π / 3) by
      rw [sub_nonneg, div_le_one (by positivity)]; linarith)
    (show (0 : ℝ) ≤ (y - π / 6) / (π / 3) from div_nonneg (by linarith) (by positivity))
    (by ring)
  simp only [smul_eq_mul, sin_pi_div_six, sin_pi_div_two] at hc
  have e : (1 - (y - π / 6) / (π / 3)) * (π / 6) + (y - π / 6) / (π / 3) * (π / 2) = y := by
    field_simp; ring
  rw [e] at hc
  calc 1 / 2 + 3 / (2 * π) * (y - π / 6)
      = (1 - (y - π / 6) / (π / 3)) * (1 / 2) + (y - π / 6) / (π / 3) * 1 := by
        field_simp; ring
    _ ≤ sin y := hc

theorem sawChord_le_sin (n : ℕ) (h1 : 1 ≤ n) (h49 : n ≤ 49) :
    ((sawChord n : ℚ) : ℝ) ≤ sin ((n : ℝ) * (π / 50)) := by
  have hpi : 0 < π := pi_pos
  have hn1 : (1 : ℝ) ≤ n := by exact_mod_cast h1
  have hn49 : (n : ℝ) ≤ 49 := by exact_mod_cast h49
  unfold sawChord
  split_ifs with ha hb hc
  · have hn : (n : ℝ) ≤ 8 := by exact_mod_cast ha
    have := sin_chord_low ((n : ℝ) * (π / 50)) (by positivity) (by nlinarith)
    push_cast
    calc 3 * (n : ℝ) / 50 = 3 / π * ((n : ℝ) * (π / 50)) := by field_simp; ring
      _ ≤ _ := this
  · have hn : (n : ℝ) ≤ 25 := by exact_mod_cast hb
    have hn' : (9 : ℝ) ≤ n := by
      have : 9 ≤ n := by omega
      exact_mod_cast this
    have := sin_chord_high ((n : ℝ) * (π / 50)) (by nlinarith) (by nlinarith)
    push_cast
    calc 1 / 4 + 3 * (n : ℝ) / 100
        = 1 / 2 + 3 / (2 * π) * ((n : ℝ) * (π / 50) - π / 6) := by field_simp; ring
      _ ≤ _ := this
  · have hn : (n : ℝ) ≤ 41 := by exact_mod_cast hc
    have hn' : (26 : ℝ) ≤ n := by
      have : 26 ≤ n := by omega
      exact_mod_cast this
    have := sin_chord_high (π - (n : ℝ) * (π / 50)) (by nlinarith) (by nlinarith)
    rw [sin_pi_sub] at this
    push_cast
    calc 1 / 4 + 3 * (50 - (n : ℝ)) / 100
        = 1 / 2 + 3 / (2 * π) * (π - (n : ℝ) * (π / 50) - π / 6) := by field_simp; ring
      _ ≤ _ := this
  · have hn' : (42 : ℝ) ≤ n := by
      have : 42 ≤ n := by omega
      exact_mod_cast this
    have := sin_chord_low (π - (n : ℝ) * (π / 50)) (by nlinarith) (by nlinarith)
    rw [sin_pi_sub] at this
    push_cast
    calc 3 * (50 - (n : ℝ)) / 50 = 3 / π * (π - (n : ℝ) * (π / 50)) := by field_simp; ring
      _ ≤ _ := this

theorem oscillator_sawtooth {α : Type} [LinearOrderedField α] (L : Libm α) (rand : Int)
    (t f lowFreqOscHertz lowFreqOscAmp : α) :
    oscillator L rand t f SAWTOOTH_WAVE lowFreqOscHertz lowFreqOscAmp
      = (List.range' 1 49).foldl
          (fun (dOutput : α) (n : ℕ) => dOutput
            + L.sin ((n : α) * (hzToAngular L f * t
                + lowFreqOscAmp * f * (L.sin (hzToAngular L lowFreqOscHertz * t)))) / (n : α))
          0.0 * (2.0 / L.PI) := by
  rfl

theorem sawChord_sum_gt :
    (63 / 40 : ℝ)
      < (List.range' 1 49).foldl
          (fun (acc : ℝ) (n : ℕ) => acc + ((sawChord n : ℚ) : ℝ) / (n : ℝ)) 0 := by
  norm_num [List.range', List.foldl, sawChord]

theorem harmonic_sum_lt :
    (List.range' 1 49).foldl (fun (acc : ℝ) (n : ℕ) => acc + 1 / (n : ℝ)) 0 < 9 / 2 := by
  norm_num [List.range', List.foldl]

theorem saw_fold_gt :
    π / 2 < (List.range' 1 49).foldl
      (fun (acc : ℝ) (n : ℕ) => acc + Real.sin ((n : ℝ) * (π / 50)) / (n : ℝ)) 0 := by
  have hmono := foldl_add_mono (List.range' 1 49)
    (fun n => Real.sin ((n : ℝ) * (π / 50)) / (n : ℝ))
    (fun n => ((sawChord n : ℚ) : ℝ) / (n : ℝ)) 0 0 (le_refl 0)
    (by
      intro n hn
      rw [List.mem_range'_1] at hn
      have hn0 : (0 : ℝ) < n := by
        have : 0 < n := by omega
        exact_mod_cast this
      exact div_le_div_of_nonneg_right (sawChord_le_sin n hn.1 (by omega)) hn0.le)
  have hsum := sawChord_sum_gt
  have := pi_lt_d2
  beta_reduce at hmono
  linarith

/-- C3 as stated fails: at phase `π/50` (time 1/100, frequency 1, no vibrato) the
sawtooth sum of 49 harmonics is above 1. -/
theorem oscillator_sawtooth_exceeds_one :
    1 < oscillator (Libm.mk Real.sin Real.arcsin Real.pi 32767) 0 (1 / 100) 1
      SAWTOOTH_WAVE 0 0 := by
  have hpi : 0 < π := pi_pos
  rw [oscillator_sawtooth]
  have hb : hzToAngular (Libm.mk Real.sin Real.arcsin Real.pi 32767) (1 : ℝ) * (1 / 100)
      + 0 * 1 * (Real.sin (hzToAngular (Libm.mk Real.sin Real.arcsin Real.pi 32767) 0 * (1 / 100)))
      = π / 50 := by
    simp only [hzToAngular]
    norm_num
    ring
  have h0 : (0.0 : ℝ) = 0 := by norm_num
  have h2 : (2.0 : ℝ) / π = 2 / π := by norm_num
  simp only [hb, h0, h2]
  have hlow := saw_fold_gt
  generalize (List.range' 1 49).foldl
      (fun (acc : ℝ) (n : ℕ) => acc + Real.sin ((n : ℝ) * (π / 50)) / (n : ℝ)) 0 = S
      at hlow ⊢
  calc (1 : ℝ) = π / 2 * (2 / π) := by field_simp
    _ < S * (2 / π) := mul_lt_mul_of_pos_right hlow (by positivity)

/-- The sawtooth sum is bounded by the 49th harmonic number times `2/π`. -/
theorem oscillator_sawtooth_abs_lt (RAND_MAX rand : Int) (t f lowFreqOscHertz lowFreqOscAmp : ℝ) :
    |oscillator (Libm.mk Real.sin Real.arcsin Real.pi RAND_MAX) rand t f SAWTOOTH_WAVE
      lowFreqOscHertz lowFreqOscAmp| < 3 := by
  have hpi : 3 < π := pi_gt_three
  rw [oscillator_sawtooth]
  have h0 : (0.0 : ℝ) = 0 := by norm_num
  have h2 : (2.0 : ℝ) / π = 2 / π := by norm_num
  simp only [h0, h2]
  generalize hzToAngular (Libm.mk Real.sin Real.arcsin Real.pi RAND_MAX) f * t
      + lowFreqOscAmp * f
        * Real.sin (hzToAngular (Libm.mk Real.sin Real.arcsin Real.pi RAND_MAX) lowFreqOscHertz * t)
      = b
  have habs := foldl_add_abs (List.range' 1 49)
    (fun n => Real.sin ((n : ℝ) * b) / (n : ℝ)) (fun n => 1 / (n : ℝ)) 0 0 (by simp)
    (by
      intro n hn
      rw [List.mem_range'_1] at hn
      have hn0 : (0 : ℝ) < n := by
        have : 0 < n := by omega
        exact_mod_cast this
      rw [abs_div, abs_of_pos hn0]
      exact div_le_div_of_nonneg_right (Real.abs_sin_le_one _) hn0.le)
  have hH := harmonic_sum_lt
  beta_reduce at habs
  generalize (List.range' 1 49).foldl
      (fun (acc : ℝ) (n : ℕ) => acc + Real.sin ((n : ℝ) * b) / (n : ℝ)) 0 = S at habs ⊢
  generalize (List.range' 1 49).foldl (fun (acc : ℝ) (n : ℕ) => acc + 1 / (n : ℝ)) 0 = H
    at habs hH
  rw [abs_mul, abs_of_pos (show (0 : ℝ) < 2 / π by positivity)]
  have h1 : 2 / π < 2 / 3 := by
    apply div_lt_div_of_pos_left <;> linarith
  have hS0 : 0 ≤ |S| := abs_nonneg S
  nlinarith

/-- C3 amended: for every waveform kind other than the sawtooth (sine, square,
triangle, noise with `rand()` in `0..RAND_MAX`, or an unknown kind) the
oscillator lies in `[-1, 1]`; for the sawtooth, a sum of 49 harmonics that
overshoots 1, it lies strictly between -3 and 3. -/
theorem oscillator_range (RAND_MAX rand : Int) (hM : 0 < RAND_MAX) (hr0 : 0 ≤ rand)
    (hr1 : rand ≤ RAND_MAX) (t f : ℝ) (nType : Int) (lowFreqOscHertz lowFreqOscAmp : ℝ) :
    (nType ≠ SAWTOOTH_WAVE →
      -1 ≤ oscillator (Libm.mk Real.sin Real.arcsin Real.pi RAND_MAX) rand t f nType
          lowFreqOscHertz lowFreqOscAmp ∧
        oscillator (Libm.mk Real.sin Real.arcsin Real.pi RAND_MAX) rand t f nType
          lowFreqOscHertz lowFreqOscAmp ≤ 1) ∧
      (nType = SAWTOOTH_WAVE →
        -3 < oscillator (Libm.mk Real.sin Real.arcsin Real.pi RAND_MAX) rand t f nType
            lowFreqOscHertz lowFreqOscAmp ∧
          oscillator (Libm.mk Real.sin Real.arcsin Real.pi RAND_MAX) rand t f nType
            lowFreqOscHertz lowFreqOscAmp < 3) := by
  have hpi : 0 < π := pi_pos
  constructor
  · intro hsaw
    unfold oscillator
    simp only []
    split_ifs with h1 h2 h3 h4 h5
    · exact ⟨Real.neg_one_le_sin _, Real.sin_le_one _⟩
    · norm_num
    · norm_num
    · have ha := Real.neg_pi_div_two_le_arcsin
        (Real.sin (hzToAngular (Libm.mk Real.sin Real.arcsin Real.pi RAND_MAX) f * t
          + lowFreqOscAmp * f * Real.sin
            (hzToAngular (Libm.mk Real.sin Real.arcsin Real.pi RAND_MAX) lowFreqOscHertz * t)))
      have hb := Real.arcsin_le_pi_div_two
        (Real.sin (hzToAngular (Libm.mk Real.sin Real.arcsin Real.pi RAND_MAX) f * t
          + lowFreqOscAmp * f * Real.sin
            (hzToAngular (Libm.mk Real.sin Real.arcsin Real.pi RAND_MAX) lowFreqOscHertz * t)))
      have h2 : (2.0 : ℝ) / π = 2 / π := by norm_num
      rw [h2]
      constructor
      · calc (-1 : ℝ) = -(π / 2) * (2 / π) := by field_simp; ring
          _ ≤ _ := mul_le_mul_of_nonneg_right ha (by positivity)
      · calc _ ≤ π / 2 * (2 / π) := mul_le_mul_of_nonneg_right hb (by positivity)
          _ = 1 := by field_simp
    · have hMr : (0 : ℝ) < (RAND_MAX : ℝ) := by exact_mod_cast hM
      have hq0 : (0 : ℝ) ≤ (rand : ℝ) / (RAND_MAX : ℝ) :=
        div_nonneg (by exact_mod_cast hr0) hMr.le
      have hq1 : (rand : ℝ) / (RAND_MAX : ℝ) ≤ 1 := by
        rw [div_le_one hMr]; exact_mod_cast hr1
      have e2 : (2.0 : ℝ) = 2 := by norm_num
      have e1 : (1.0 : ℝ) = 1 := by norm_num
      rw [e2, e1]
      constructor <;> linarith
    · norm_num
  · intro hsaw
    subst hsaw
    have := oscillator_sawtooth_abs_lt RAND_MAX rand t f lowFreqOscHertz lowFreqOscAmp
    rw [abs_lt] at this
    exact this

/-- Witness of C3: the noise voice with `rand() = 100` and `RAND_MAX = 32767`. -/
theorem oscillator_range_witness :
    -1 ≤ oscillator (Libm.mk Real.sin Real.arcsin Real.pi 32767) 100 0 440 NOISE 0 0 ∧
      oscillator (Libm.mk Real.sin Real.arcsin Real.pi 32767) 100 0 440 NOISE 0 0 ≤ 1 :=
  (oscillator_range 32767 100 (by decide) (by decide) (by decide) 0 440 NOISE 0 0).1
    (by decide)

end Oscillator

/-! ## The mixer output at a reachable registry -/

section Mixer

open Real

/-- The triangle voice is never below -1. -/
theorem oscillator_triangle_ge (RAND_MAX rand : Int) (t f lowFreqOscHertz lowFreqOscAmp : ℝ) :
    -1 ≤ oscillator (Libm.mk Real.sin Real.arcsin Real.pi RAND_MAX) rand t f TRIANGLE_WAVE
      lowFreqOscHertz lowFreqOscAmp := by
  have hpi : 0 < π := pi_pos
  have ha := Real.neg_pi_div_two_le_arcsin
    (Real.sin (hzToAngular (Libm.mk Real.sin Real.arcsin Real.pi RAND_MAX) f * t
      + lowFreqOscAmp * f * Real.sin
        (hzToAngular (Libm.mk Real.sin Real.arcsin Real.pi RAND_MAX) lowFreqOscHertz * t)))
  have h2 : (2.0 : ℝ) / π = 2 / π := by norm_num
  show -1 ≤ Real.arcsin _ * (2.0 / π)
  rw [h2]
  calc (-1 : ℝ) = -(π / 2) * (2 / π) := by field_simp; ring
    _ ≤ _ := mul_le_mul_of_nonneg_right ha (by positivity)

theorem scale_four_to_six_bounds :
    (256 : ℝ) < scale 4 SCALE_DEFAULT ∧ (scale 4 SCALE_DEFAULT : ℝ) < scale 5 SCALE_DEFAULT ∧
      (scale 5 SCALE_DEFAULT : ℝ) < scale 6 SCALE_DEFAULT ∧
      (scale 6 SCALE_DEFAULT : ℝ) < 377 := by
  simp only [scale_eq]
  norm_num [TWO_TWELFTH_ROOT]

theorem sin_peak : Real.sin (-(151 / 2) * π) = 1 := by
  have h : -(151 / 2) * π = π / 2 + ((-38 : ℤ) : ℝ) * (2 * π) := by
    push_cast; ring
  rw [h, Real.sin_add_int_mul_two_pi, Real.sin_pi_div_two]

theorem overloadNotes_eq :
    overloadNotes ℝ
      = [⟨0, 1 - (151 / 4) / scale 4 SCALE_DEFAULT, 0, true, 5⟩,
         ⟨1, 1 - (151 / 4) / scale 5 SCALE_DEFAULT, 0, true, 5⟩,
         ⟨2, 1 - (151 / 4) / scale 6 SCALE_DEFAULT, 0, true, 5⟩] := by
  unfold overloadNotes
  rw [keyStep_absent [] 0 true _ 5 (by simp), if_pos rfl]
  rw [keyStep_absent _ 1 true _ 5 (by simp), if_pos rfl]
  rw [keyStep_absent _ 2 true _ 5 (by simp), if_pos rfl]
  rfl

/-- An ocarina note held for more than its attack time and pressed `37.75`
periods of its main voice before `dTime` contributes at least `1.72`. -/
theorem ocarina_peak (rand : Int) (id : Int) (dTime : ℝ)
    (hlo : (151 / 4 : ℝ) / scale (id + 4) SCALE_DEFAULT < dTime)
    (hlife : (1 / 10 : ℝ) < (151 / 4) / scale (id + 4) SCALE_DEFAULT) :
    (43 / 25 : ℝ) ≤ (MakeNoise.dispatch (Libm.mk Real.sin Real.arcsin Real.pi 32767) rand dTime
      ⟨id, dTime - (151 / 4) / scale (id + 4) SCALE_DEFAULT, 0, true, 5⟩).1 := by
  have hf : (0 : ℝ) < scale (id + 4) SCALE_DEFAULT := scale_pos _ _
  have hheld : dTime - (151 / 4) / scale (id + 4) SCALE_DEFAULT > (0 : ℝ) := by linarith
  have hamp : envamp dTime (instOcar : instrument ℝ).env
      (dTime - (151 / 4) / scale (id + 4) SCALE_DEFAULT) 0 = 1 := by
    rw [envamp, amplitude_held _ _ _ _ hheld]
    have hl : dTime - (dTime - (151 / 4) / scale (id + 4) SCALE_DEFAULT)
        = (151 / 4 : ℝ) / scale (id + 4) SCALE_DEFAULT := by ring
    rw [hl]
    have hgt : (151 / 4 : ℝ) / scale (id + 4) SCALE_DEFAULT
        > (instOcar : instrument ℝ).env.attackTime + (instOcar : instrument ℝ).env.decayTime := by
      norm_num [instOcar, envelope_synth.new]
      linarith
    unfold adsLevel
    rw [if_pos hgt]
    norm_num [clampZero, instOcar, envelope_synth.new]
  have hsin : oscillator (Libm.mk Real.sin Real.arcsin Real.pi 32767) rand
      (dTime - (151 / 4) / scale (id + 4) SCALE_DEFAULT - dTime)
      (scale (id + 4) SCALE_DEFAULT) SINE_WAVE 0.0 0.0 = 1 := by
    have hph : scale (id + 4) SCALE_DEFAULT * 2.0 * π
        * (dTime - (151 / 4) / scale (id + 4) SCALE_DEFAULT - dTime)
        + 0.0 * scale (id + 4) SCALE_DEFAULT * Real.sin (0.0 * 2.0 * π
          * (dTime - (151 / 4) / scale (id + 4) SCALE_DEFAULT - dTime))
        = -(151 / 2) * π := by
      field_simp
      ring
    show Real.sin _ = 1
    simp only [hzToAngular]
    rw [hph, sin_peak]
  have htri := oscillator_triangle_ge 32767 rand
    (dTime - (151 / 4) / scale (id + 4) SCALE_DEFAULT - dTime) (scale id SCALE_DEFAULT) 0.0 0.0
  have hch : (⟨id, dTime - (151 / 4) / scale (id + 4) SCALE_DEFAULT, 0, true, 5⟩ : note ℝ).channel
      = 5 := rfl
  simp only [MakeNoise.dispatch, hch, instrument_ocarina.createSound]
  norm_num only [if_false, if_true, reduceCtorEq]
  have e0 : (0.0 : ℝ) = 0 := by norm_num
  rw [e0] at hsin htri
  rw [hamp, hsin]
  have hv : (instOcar : instrument ℝ).volume = 1 := by norm_num [instOcar]
  rw [hv]
  linarith

/-- C1, the code at a reachable registry: three ocarina notes on keys 0, 1, 2,
all still held at time 1 and each pressed `37.75` periods of its main voice
earlier, make `MakeNoise` return more than 1. -/
theorem MakeNoise_exceeds_one (rand : Nat → Int) (nChannel : Int) :
    overloadNotes ℝ
        = [⟨0, 1 - (151 / 4) / scale 4 SCALE_DEFAULT, 0, true, 5⟩,
           ⟨1, 1 - (151 / 4) / scale 5 SCALE_DEFAULT, 0, true, 5⟩,
           ⟨2, 1 - (151 / 4) / scale 6 SCALE_DEFAULT, 0, true, 5⟩] ∧
      (∀ n ∈ overloadNotes ℝ, n.off < n.on_ ∧ n.on_ ≤ 1) ∧
      1 < (MakeNoise (Libm.mk Real.sin Real.arcsin Real.pi 32767) rand (overloadNotes ℝ)
        nChannel 1).1 := by
  obtain ⟨b0, b1, b2, b3⟩ := scale_four_to_six_bounds
  have f4 : (0 : ℝ) < scale 4 SCALE_DEFAULT := scale_pos _ _
  have f5 : (0 : ℝ) < scale 5 SCALE_DEFAULT := scale_pos _ _
  have f6 : (0 : ℝ) < scale 6 SCALE_DEFAULT := scale_pos _ _
  have hlo : ∀ f : ℝ, 256 < f → (151 / 4 : ℝ) / f < 1 := by
    intro f hf
    rw [div_lt_one (by linarith)]
    linarith
  have hlife : ∀ f : ℝ, 0 < f → f < 377 → (1 / 10 : ℝ) < (151 / 4) / f := by
    intro f hf0 hf
    rw [lt_div_iff₀ hf0]
    linarith
  have hpos : ∀ f : ℝ, 0 < f → (0 : ℝ) < (151 / 4) / f := fun f hf => by positivity
  refine ⟨overloadNotes_eq, ?_, ?_⟩
  · rw [overloadNotes_eq]
    intro n hn
    simp only [List.mem_cons, List.mem_singleton, List.not_mem_nil, or_false] at hn
    rcases hn with h | h | h <;> subst h <;> simp only []
    · exact ⟨by linarith [hlo _ b0], by linarith [hpos _ f4]⟩
    · exact ⟨by linarith [hlo _ (b0.trans b1)], by linarith [hpos _ f5]⟩
    · exact ⟨by linarith [hlo _ ((b0.trans b1).trans b2)], by linarith [hpos _ f6]⟩
  · rw [overloadNotes_eq]
    have d0 := ocarina_peak (rand 0) 0 1 (hlo _ b0) (hlife _ f4 (b1.trans (b2.trans b3)))
    have d1 := ocarina_peak (rand 1) 1 1 (hlo _ (b0.trans b1)) (hlife _ f5 (b2.trans b3))
    have d2 := ocarina_peak (rand 2) 2 1 (hlo _ ((b0.trans b1).trans b2)) (hlife _ f6 b3)
    have e4 : ((0 : ℤ) + 4) = 4 := rfl
    have e5 : ((1 : ℤ) + 4) = 5 := rfl
    have e6 : ((2 : ℤ) + 4) = 6 := rfl
    rw [e4] at d0
    rw [e5] at d1
    rw [e6] at d2
    simp only [MakeNoise, MakeNoise.loop]
    norm_num only []
    linarith

end Mixer

/-! ## The shape of the envelope -/

section EnvelopeShape

variable {α : Type} [LinearOrderedField α]

/-- With non-negative start and sustain levels the level reached at a positive
life time is non-negative, whatever the attack and decay times. -/
theorem adsLevel_nonneg_of_pos (e : envelope_synth α)
    (hs0 : 0 ≤ e.sustainAmplitude) (hb0 : 0 ≤ e.startAmplitude)
    (life : α) (hl : 0 < life) : 0 ≤ adsLevel e life := by
  unfold adsLevel
  split_ifs with h1 h2 h3
  · exact hs0
  · obtain ⟨h2a, h2b⟩ := h2
    have hd : 0 < e.decayTime := by linarith
    have hx0 : 0 ≤ (life - e.attackTime) / e.decayTime :=
      div_nonneg (by linarith) hd.le
    have hx1 : (life - e.attackTime) / e.decayTime ≤ 1 := by
      rw [div_le_one hd]; linarith
    nlinarith
  · have ha : 0 < e.attackTime := lt_of_lt_of_le hl h3
    exact mul_nonneg (div_nonneg hl.le ha.le) hb0
  · exact le_refl 0

theorem amplitude_zero_after_release (e : envelope_synth α) (hrel : 0 < e.releaseTime)
    (hs0 : 0 ≤ e.sustainAmplitude) (hb0 : 0 ≤ e.startAmplitude)
    (t timeOn timeOff : α) (hoff : timeOff > timeOn) (ht : timeOff + e.releaseTime ≤ t) :
    e.amplitude t timeOn timeOff = 0 := by
  rw [amplitude_released e t timeOn timeOff (not_lt.mpr hoff.le)]
  have hl := adsLevel_nonneg_of_pos e hs0 hb0 (timeOff - timeOn) (by linarith)
  have hx : 1 ≤ (t - timeOff) / e.releaseTime := by
    rw [le_div_iff₀ hrel]; linarith
  unfold clampZero
  rw [if_pos]
  nlinarith

/-- In exact arithmetic, with a positive release time and non-negative start and
sustain levels, the amplitude of a released note is 0 at `timeOff + releaseTime`
and at every later time.  In doubles the rounding of the release ramp can leave
a residue there (`amplitudeR_residue`). -/
theorem amplitude_zero_at_release_end (e : envelope_synth α) (hrel : 0 < e.releaseTime)
    (hs0 : 0 ≤ e.sustainAmplitude) (hb0 : 0 ≤ e.startAmplitude)
    (timeOn timeOff : α) (hoff : timeOff > timeOn) :
    e.amplitude (timeOff + e.releaseTime) timeOn timeOff = 0 ∧
      ∀ t, timeOff + e.releaseTime ≤ t → e.amplitude t timeOn timeOff = 0 :=
  ⟨amplitude_zero_after_release e hrel hs0 hb0 _ timeOn timeOff hoff (le_refl _),
    fun t ht => amplitude_zero_after_release e hrel hs0 hb0 t timeOn timeOff hoff ht⟩

theorem clampZero_mono {x y : α} (h : x ≤ y) : clampZero x ≤ clampZero y := by
  unfold clampZero
  split_ifs with hx hy hy
  · exact le_refl 0
  · exact (not_le.mp hy).le
  · linarith
  · exact h

theorem clampZero_of_nonneg {x : α} (h : 0 ≤ x) : clampZero x = x := by
  unfold clampZero
  split_ifs with hx
  · exact le_antisymm h hx
  · rfl

/-- The shape of the held curve of a parameter set with `0 < attackTime`,
`0 <= decayTime` and `0 <= sustainAmplitude <= startAmplitude`. -/
theorem amplitude_held_shape (e : envelope_synth α) (ha : 0 < e.attackTime)
    (hd : 0 ≤ e.decayTime) (hs0 : 0 ≤ e.sustainAmplitude)
    (hsb : e.sustainAmplitude ≤ e.startAmplitude)
    (timeOn timeOff : α) (hheld : timeOn > timeOff) :
    (∀ t1 t2, timeOn ≤ t1 → t1 ≤ t2 → t2 - timeOn ≤ e.attackTime →
        e.amplitude t1 timeOn timeOff ≤ e.amplitude t2 timeOn timeOff) ∧
      (∀ t1 t2, e.attackTime < t1 - timeOn → t1 ≤ t2 →
        t2 - timeOn ≤ e.attackTime + e.decayTime →
        e.amplitude t2 timeOn timeOff ≤ e.amplitude t1 timeOn timeOff) ∧
      (∀ t, e.attackTime + e.decayTime < t - timeOn →
        e.amplitude t timeOn timeOff = e.sustainAmplitude) := by
  have hb0 : 0 ≤ e.startAmplitude := hs0.trans hsb
  refine ⟨?_, ?_, ?_⟩
  · intro t1 t2 h1 h12 h2
    rw [amplitude_held e t1 _ _ hheld, amplitude_held e t2 _ _ hheld]
    apply clampZero_mono
    have l1 : adsLevel e (t1 - timeOn) = (t1 - timeOn) / e.attackTime * e.startAmplitude := by
      unfold adsLevel
      rw [if_neg (by linarith), if_neg (fun h => absurd h.1 (by linarith)), if_pos (by linarith)]
    have l2 : adsLevel e (t2 - timeOn) = (t2 - timeOn) / e.attackTime * e.startAmplitude := by
      unfold adsLevel
      rw [if_neg (by linarith), if_neg (fun h => absurd h.1 (by linarith)), if_pos (by linarith)]
    rw [l1, l2]
    apply mul_le_mul_of_nonneg_right _ hb0
    exact div_le_div_of_nonneg_right (by linarith) ha.le
  · intro t1 t2 h1 h12 h2
    rw [amplitude_held e t1 _ _ hheld, amplitude_held e t2 _ _ hheld]
    apply clampZero_mono
    have hdpos : 0 < e.decayTime := by linarith
    have l1 : adsLevel e (t1 - timeOn) = (t1 - timeOn - e.attackTime) / e.decayTime
        * (e.sustainAmplitude - e.startAmplitude) + e.startAmplitude := by
      unfold adsLevel
      rw [if_neg (by linarith), if_pos ⟨h1, by linarith⟩]
    have l2 : adsLevel e (t2 - timeOn) = (t2 - timeOn - e.attackTime) / e.decayTime
        * (e.sustainAmplitude - e.startAmplitude) + e.startAmplitude := by
      unfold adsLevel
      rw [if_neg (by linarith), if_pos ⟨by linarith, h2⟩]
    rw [l1, l2]
    have hdiv : (t1 - timeOn - e.attackTime) / e.decayTime
        ≤ (t2 - timeOn - e.attackTime) / e.decayTime :=
      div_le_div_of_nonneg_right (by linarith) hdpos.le
    nlinarith
  · intro t ht
    rw [amplitude_held e t _ _ hheld]
    have l : adsLevel e (t - timeOn) = e.sustainAmplitude := by
      unfold adsLevel
      rw [if_pos ht]
    rw [l, clampZero_of_nonneg hs0]

/-- C12 as stated fails: the held bell note pressed at 1 has amplitude 1 at life
0.01 and a smaller amplitude at life 0.51, although both life times are at most
`attackTime + decayTime`. -/
theorem bell_decay_decreases :
    (1.01 : ℚ) - 1 ≤ 1.51 - 1 ∧
      (1.51 : ℚ) - 1
        ≤ (instBell : instrument ℚ).env.attackTime + (instBell : instrument ℚ).env.decayTime ∧
      ((instBell : instrument ℚ).env).amplitude 1.51 1 0
        < ((instBell : instrument ℚ).env).amplitude 1.01 1 0 := by
  refine ⟨by norm_num, by norm_num [instBell, envelope_synth.new], ?_⟩
  norm_num [envelope_synth.amplitude, instBell, envelope_synth.new]

/-- C12 amended: for a held note and each of the five instrument envelopes the
amplitude is non-decreasing while `life <= attackTime`, non-increasing while
`attackTime < life <= attackTime + decayTime`, and equal to `sustainAmplitude`
for every `life > attackTime + decayTime`, where `life = time - timeOn`. -/
theorem amplitude_held_instruments (e : envelope_synth α)
    (he : e ∈ [(instBell : instrument α).env, (instHarm : instrument α).env,
      (instHpchord : instrument α).env, (instBass : instrument α).env,
      (instOcar : instrument α).env])
    (timeOn timeOff : α) (hheld : timeOn > timeOff) :
    (∀ t1 t2, timeOn ≤ t1 → t1 ≤ t2 → t2 - timeOn ≤ e.attackTime →
        e.amplitude t1 timeOn timeOff ≤ e.amplitude t2 timeOn timeOff) ∧
      (∀ t1 t2, e.attackTime < t1 - timeOn → t1 ≤ t2 →
        t2 - timeOn ≤ e.attackTime + e.decayTime →
        e.amplitude t2 timeOn timeOff ≤ e.amplitude t1 timeOn timeOff) ∧
      (∀ t, e.attackTime + e.decayTime < t - timeOn →
        e.amplitude t timeOn timeOff = e.sustainAmplitude) := by
  simp only [List.mem_cons, List.mem_singleton, List.not_mem_nil, or_false] at he
  rcases he with h | h | h | h | h <;> subst h <;>
    apply amplitude_held_shape _ _ _ _ _ timeOn timeOff hheld <;>
    norm_num [instBell, instHarm, instHpchord, instBass, instOcar, envelope_synth.new]

/-- Witness of C12: the harmonica envelope of a note pressed at 1 equals its
sustain level at time 3. -/
theorem amplitude_held_instruments_witness :
    ((instHarm : instrument ℚ).env).amplitude 3 1 0
      = (instHarm : instrument ℚ).env.sustainAmplitude :=
  (amplitude_held_instruments (instHarm : instrument ℚ).env (by simp) 1 0
    (by norm_num)).2.2 3 (by norm_num [instHarm, envelope_synth.new])

end EnvelopeShape

/-! ## The sine and square waveforms -/

section Waveforms

open Real

/-- C17: the sine waveform lies in `[-1, 1]` for every time, frequency and
vibrato setting. -/
theorem oscillator_sine_range (RAND_MAX rand : Int)
    (t f lowFreqOscHertz lowFreqOscAmp : ℝ) :
    -1 ≤ oscillator (Libm.mk Real.sin Real.arcsin Real.pi RAND_MAX) rand t f SINE_WAVE
        lowFreqOscHertz lowFreqOscAmp ∧
      oscillator (Libm.mk Real.sin Real.arcsin Real.pi RAND_MAX) rand t f SINE_WAVE
        lowFreqOscHertz lowFreqOscAmp ≤ 1 := by
  show -1 ≤ Real.sin _ ∧ Real.sin _ ≤ 1
  exact ⟨Real.neg_one_le_sin _, Real.sin_le_one _⟩

/-- The phase computed by the oscillator, in the form
`2π·f·t + lfoAmp·f·sin(2π·lfoFreq·t)`. -/
theorem oscillator_phase (RAND_MAX : Int) (t f lowFreqOscHertz lowFreqOscAmp : ℝ) :
    hzToAngular (Libm.mk Real.sin Real.arcsin Real.pi RAND_MAX) f * t
        + lowFreqOscAmp * f
          * Real.sin (hzToAngular (Libm.mk Real.sin Real.arcsin Real.pi RAND_MAX)
              lowFreqOscHertz * t)
      = 2 * π * f * t + lowFreqOscAmp * f * Real.sin (2 * π * lowFreqOscHertz * t) := by
  have h2 : (2.0 : ℝ) = 2 := by norm_num
  simp only [hzToAngular, h2]
  have e1 : f * 2 * π * t = 2 * π * f * t := by ring
  have e2 : lowFreqOscHertz * 2 * π * t = 2 * π * lowFreqOscHertz * t := by ring
  rw [e1, e2]

theorem oscillator_square_eq (RAND_MAX rand : Int)
    (t f lowFreqOscHertz lowFreqOscAmp : ℝ) :
    oscillator (Libm.mk Real.sin Real.arcsin Real.pi RAND_MAX) rand t f SQUARE_WAVE
        lowFreqOscHertz lowFreqOscAmp
      = if Real.sin (2 * π * f * t + lowFreqOscAmp * f * Real.sin (2 * π * lowFreqOscHertz * t))
            > 0 then 1 else -1 := by
  rw [← oscillator_phase RAND_MAX]
  have h1 : (1.0 : ℝ) = 1 := by norm_num
  show (if Real.sin _ > 0 then (1.0 : ℝ) else -1.0) = _
  rw [h1]

/-- C13 as stated fails: at `t = 0` the sine of the phase is 0, which is `>= 0`,
and the square waveform is -1, not +1. -/
theorem oscillator_square_at_zero :
    Real.sin (2 * π * 440 * 0 + 0.001 * 440 * Real.sin (2 * π * 5 * 0)) ≥ 0 ∧
      oscillator (Libm.mk Real.sin Real.arcsin Real.pi 32767) 0 0 440 SQUARE_WAVE 5 0.001
        = -1 ∧
      oscillator (Libm.mk Real.sin Real.arcsin Real.pi 32767) 0 0 440 SQUARE_WAVE 5 0.001
        ≠ 1 := by
  have hs : Real.sin (2 * π * 440 * 0 + 0.001 * 440 * Real.sin (2 * π * 5 * 0)) = 0 := by
    simp
  have hv : oscillator (Libm.mk Real.sin Real.arcsin Real.pi 32767) 0 0 440 SQUARE_WAVE 5 0.001
      = -1 := by
    rw [oscillator_square_eq, hs]
    simp
  refine ⟨hs.ge, hv, ?_⟩
  rw [hv]
  norm_num

/-- C13 amended: the square waveform is +1 when the sine of the phase is
positive and -1 when it is negative or 0, where
`phase = 2π·f·t + lfoAmp·f·sin(2π·lfoFreq·t)`; in particular it is -1 at
`t = 0`. -/
theorem oscillator_square (RAND_MAX rand : Int) (t f lowFreqOscHertz lowFreqOscAmp : ℝ) :
    (0 < Real.sin (2 * π * f * t + lowFreqOscAmp * f * Real.sin (2 * π * lowFreqOscHertz * t)) →
        oscillator (Libm.mk Real.sin Real.arcsin Real.pi RAND_MAX) rand t f SQUARE_WAVE
          lowFreqOscHertz lowFreqOscAmp = 1) ∧
      (Real.sin (2 * π * f * t + lowFreqOscAmp * f * Real.sin (2 * π * lowFreqOscHertz * t)) ≤ 0 →
        oscillator (Libm.mk Real.sin Real.arcsin Real.pi RAND_MAX) rand t f SQUARE_WAVE
          lowFreqOscHertz lowFreqOscAmp = -1) ∧
      oscillator (Libm.mk Real.sin Real.arcsin Real.pi RAND_MAX) rand 0 f SQUARE_WAVE
        lowFreqOscHertz lowFreqOscAmp = -1 := by
  refine ⟨?_, ?_, ?_⟩
  · intro h
    rw [oscillator_square_eq, if_pos h]
  · intro h
    rw [oscillator_square_eq, if_neg (not_lt.mpr h)]
  · rw [oscillator_square_eq]
    simp

/-- Witness of C13: at `t = 1/1760` and 440 Hz without vibrato the phase is
`π/2`, its sine is positive and the square waveform is +1. -/
theorem oscillator_square_witness :
    oscillator (Libm.mk Real.sin Real.arcsin Real.pi 32767) 0 (1 / 1760) 440 SQUARE_WAVE 0 0
      = 1 :=
  (oscillator_square 32767 0 (1 / 1760) 440 0 0).1 (by
    have h : 2 * π * 440 * (1 / 1760) + 0 * 440 * Real.sin (2 * π * 0 * (1 / 1760)) = π / 2 := by
      ring
    rw [h, Real.sin_pi_div_two]
    norm_num)

end Waveforms

/-! ## Invariants of the registry -/

section Registry

set_option linter.unusedSectionVars false

variable {α : Type} [LinearOrderedField α]

/-- The registry left by a render pass is the old one without the notes whose
`active` flag is false after the loop; the notes kept are unchanged. -/
theorem MakeNoise_notes_filter (L : Libm α) (rand : Nat → Int) (v : List (note α))
    (nChannel : Int) (dTime : α) :
    (MakeNoise L rand v nChannel dTime).2
      = v.filter (fun n => (markFinished dTime n).active) := by
  rw [MakeNoise_notes]
  induction v with
  | nil => rfl
  | cons m rest ih =>
    rw [List.map_cons, List.filter_cons, List.filter_cons, ih]
    by_cases h : (markFinished dTime m).active = true
    · rw [if_pos h, if_pos h, markFinished_active dTime m h]
    · rw [if_neg h, if_neg h]

theorem MakeNoise_sublist (L : Libm α) (rand : Nat → Int) (v : List (note α))
    (nChannel : Int) (dTime : α) :
    ((MakeNoise L rand v nChannel dTime).2).Sublist v := by
  rw [MakeNoise_notes_filter]
  exact List.filter_sublist v

/-- A note that is active and not both finished and released stays. -/
theorem MakeNoise_keeps (L : Libm α) (rand : Nat → Int) (v : List (note α))
    (nChannel : Int) (dTime : α) (n : note α) (hn : n ∈ v) (hact : n.active = true)
    (hkeep : ¬ (noteFinished dTime n = true ∧ n.off > n.on_)) :
    n ∈ (MakeNoise L rand v nChannel dTime).2 := by
  rw [MakeNoise_notes_filter, List.mem_filter]
  exact ⟨hn, (markFinished_active_iff dTime n hact).mpr hkeep⟩

theorem updateFound_proj {β : Type} (f : note α → β) (k : Int) (g : note α → note α)
    (hg : ∀ n, f (g n) = f n) (v : List (note α)) :
    (updateFound k g v).map f = v.map f := by
  induction v with
  | nil => rfl
  | cons n rest ih =>
    by_cases hn : n.id = k
    · rw [updateFound_cons_eq k g n rest hn, List.map_cons, List.map_cons, hg]
    · rw [updateFound_cons_ne k g n rest hn, List.map_cons, List.map_cons, ih]

/-- A key step keeps the id and the channel of every note, in place; a press on
a key without a note appends one note with the current selector. -/
theorem keyStep_id_channel (v : List (note α)) (k : Int) (nKeyState : Bool) (t : α)
    (sel : Int) :
    (keyStep v k nKeyState t sel).map (fun n => (n.id, n.channel))
      = v.map (fun n => (n.id, n.channel))
        ++ (if nKeyState = true ∧ ∀ n ∈ v, n.id ≠ k then [(k, sel)] else []) := by
  by_cases h : ∀ n ∈ v, n.id ≠ k
  · rw [keyStep_absent v k nKeyState t sel h]
    cases nKeyState
    · simp
    · rw [if_pos rfl, if_pos ⟨rfl, h⟩]
      simp
  · rw [if_neg (fun hc => h hc.2), List.append_nil]
    push_neg at h
    obtain ⟨m, hm, hk⟩ := h
    rw [keyStep_present v k nKeyState t sel m hm hk]
    cases nKeyState
    · simp only [Bool.false_eq_true, if_false]
      apply updateFound_proj
      intro n; split_ifs <;> rfl
    · simp only [if_true]
      apply updateFound_proj
      intro n; split_ifs <;> rfl

/-- C14: a key step, whatever the current selector, keeps the id and the channel
of every note of the registry in place (a press on a key without a note appends
one new note), and a render pass leaves a sublist of the registry, its notes
unchanged: no existing note changes its channel. -/
theorem steps_keep_channels (L : Libm α) (v : List (note α)) :
    (∀ (k : Int) (nKeyState : Bool) (t : α) (sel : Int),
        (keyStep v k nKeyState t sel).map (fun n => (n.id, n.channel))
          = v.map (fun n => (n.id, n.channel))
            ++ (if nKeyState = true ∧ ∀ n ∈ v, n.id ≠ k then [(k, sel)] else [])) ∧
      (∀ (rand : Nat → Int) (nChannel : Int) (dTime : α),
        ((MakeNoise L rand v nChannel dTime).2).Sublist v) :=
  ⟨fun k nKeyState t sel => keyStep_id_channel v k nKeyState t sel,
    fun rand nChannel dTime => MakeNoise_sublist L rand v nChannel dTime⟩

theorem keyStep_press_held (v : List (note α)) (hd : (v.map (fun n => n.id)).Nodup)
    (k : Int) (m : note α) (hm : m ∈ v) (hk : m.id = k) (hheld : m.on_ > m.off)
    (t : α) (sel : Int) : keyStep v k true t sel = v := by
  rw [keyStep_present v k true t sel m hm hk, if_pos rfl, updateFound_eq_map k _ v hd]
  conv_rhs => rw [← List.map_id v]
  apply List.map_congr_left
  intro n hn
  by_cases hnk : n.id = k
  · have : n = m := List.inj_on_of_nodup_map hd hn hm (by rw [hnk, hk])
    subst this
    simp only [if_pos hnk, if_neg (not_lt.mpr hheld.le), id]
  · simp only [if_neg hnk, id]

theorem keyStep_nodup (v : List (note α)) (hd : (v.map (fun n => n.id)).Nodup)
    (k : Int) (nKeyState : Bool) (t : α) (sel : Int) :
    ((keyStep v k nKeyState t sel).map (fun n => n.id)).Nodup := by
  rw [keyStep_ids]
  split_ifs with h
  · rw [List.nodup_append]
    refine ⟨hd, List.nodup_singleton k, ?_⟩
    intro a ha hk
    rw [List.mem_singleton] at hk
    subst hk
    obtain ⟨x, hx, hxk⟩ := List.mem_map.mp ha
    exact h.2 x hx hxk
  · exact hd

theorem MakeNoise_nodup (L : Libm α) (rand : Nat → Int) (v : List (note α))
    (hd : (v.map (fun n => n.id)).Nodup) (nChannel : Int) (dTime : α) :
    (((MakeNoise L rand v nChannel dTime).2).map (fun n => n.id)).Nodup :=
  List.Nodup.sublist ((MakeNoise_sublist L rand v nChannel dTime).map _) hd

theorem step_nodup (L : Libm α) (v : List (note α))
    (hd : (v.map (fun n => n.id)).Nodup) (ev : Event α) :
    ((step L v ev).map (fun n => n.id)).Nodup := by
  cases ev with
  | key k nKeyState t sel => exact keyStep_nodup v hd k nKeyState t sel
  | render rand nChannel dTime => exact MakeNoise_nodup L rand v hd nChannel dTime

theorem run_nodup (L : Libm α) (events : List (Event α)) :
    ∀ v : List (note α), (v.map (fun n => n.id)).Nodup →
      ((run L v events).map (fun n => n.id)).Nodup := by
  induction events with
  | nil => intro v hd; exact hd
  | cons ev rest ih =>
    intro v hd
    exact ih (step L v ev) (step_nodup L v hd ev)

/-- C15: a press on a key whose note is held leaves the whole registry
unchanged, at any time and under any selector; stated for every registry with
distinct ids, and so for every registry reachable from the empty one. -/
theorem press_on_held_is_noop (L : Libm α) (k : Int) (m : note α) (hk : m.id = k)
    (hheld : m.on_ > m.off) (t : α) (sel : Int) :
    (∀ v : List (note α), (v.map (fun n => n.id)).Nodup → m ∈ v →
        keyStep v k true t sel = v) ∧
      (∀ events : List (Event α), m ∈ run L [] events →
        keyStep (run L [] events) k true t sel = run L [] events) :=
  ⟨fun v hd hm => keyStep_press_held v hd k m hm hk hheld t sel,
    fun events hm =>
      keyStep_press_held _ (run_nodup L events [] List.nodup_nil) k m hm hk hheld t sel⟩

/-- Witness of C15: key 3 held since time 1 next to a released note of key 5;
a press of key 3 at time 2 under another selector changes nothing. -/
theorem press_on_held_is_noop_witness :
    keyStep ([⟨3, 1, 0, true, 1⟩, ⟨5, 1 / 2, 3 / 2, true, 2⟩] : List (note ℚ)) 3 true 2 4
      = [⟨3, 1, 0, true, 1⟩, ⟨5, 1 / 2, 3 / 2, true, 2⟩] :=
  (press_on_held_is_noop (Libm.mk (fun _ => 0) (fun _ => 0) 3 32767) 3
    (⟨3, 1, 0, true, 1⟩ : note ℚ) rfl (by norm_num) 2 4).1
    [⟨3, 1, 0, true, 1⟩, ⟨5, 1 / 2, 3 / 2, true, 2⟩] (by simp) (by simp)

theorem dispatch_no_instrument (L : Libm α) (rand : Int) (dTime : α) (n : note α)
    (h : ¬ (1 ≤ n.channel ∧ n.channel ≤ 5)) :
    MakeNoise.dispatch L rand dTime n = (0, false) := by
  unfold MakeNoise.dispatch
  simp only []
  rw [if_neg (by omega), if_neg (by omega), if_neg (by omega), if_neg (by omega),
    if_neg (by omega)]

theorem loop_no_instrument (L : Libm α) (rand : Nat → Int) (dTime : α) (v : List (note α))
    (h : ∀ n ∈ v, ¬ (1 ≤ n.channel ∧ n.channel ≤ 5)) :
    ∀ (i : Nat) (acc : α), (MakeNoise.loop L rand dTime i v acc).1 = acc := by
  induction v with
  | nil => intro i acc; rfl
  | cons n rest ih =>
    intro i acc
    simp only [MakeNoise.loop]
    rw [ih (fun x hx => h x (List.mem_cons_of_mem _ hx)),
      dispatch_no_instrument L (rand i) dTime n (h n (List.mem_cons_self _ _))]
    simp

/-- C16: when no note of the registry has a selector in 1..5, in particular when
the registry is empty, `MakeNoise` returns exactly 0. -/
theorem MakeNoise_silent (L : Libm α) (rand : Nat → Int) (v : List (note α))
    (nChannel : Int) (dTime : α) (h : ∀ n ∈ v, ¬ (1 ≤ n.channel ∧ n.channel ≤ 5)) :
    (MakeNoise L rand v nChannel dTime).1 = 0 := by
  simp only [MakeNoise]
  rw [loop_no_instrument L rand dTime v h]
  norm_num

/-- Witness of C16: the empty registry. -/
theorem MakeNoise_silent_witness :
    (MakeNoise (Libm.mk (fun _ => 1) (fun _ => 1) 3 32767) (fun _ => 0)
      ([] : List (note ℚ)) 0 1).1 = 0 :=
  MakeNoise_silent _ _ [] 0 1 (by simp)

/-- C18: distinct ids are preserved by every key step (press or release) and by
every render pass; so in every registry reached from the empty one no two notes
share an id, and each key id has at most one note. -/
theorem registry_ids_distinct (L : Libm α) :
    (∀ (v : List (note α)) (k : Int) (nKeyState : Bool) (t : α) (sel : Int),
        (v.map (fun n => n.id)).Nodup →
        ((keyStep v k nKeyState t sel).map (fun n => n.id)).Nodup) ∧
      (∀ (v : List (note α)) (rand : Nat → Int) (nChannel : Int) (dTime : α),
        (v.map (fun n => n.id)).Nodup →
        (((MakeNoise L rand v nChannel dTime).2).map (fun n => n.id)).Nodup) ∧
      (∀ events : List (Event α),
        ((run L [] events).map (fun n => n.id)).Nodup ∧
          ∀ k : Int, ((run L [] events).map (fun n => n.id)).count k ≤ 1) := by
  refine ⟨fun v k nKeyState t sel hd => keyStep_nodup v hd k nKeyState t sel,
    fun v rand nChannel dTime hd => MakeNoise_nodup L rand v hd nChannel dTime, ?_⟩
  intro events
  have hd := run_nodup L events [] List.nodup_nil
  exact ⟨hd, fun k => List.nodup_iff_count_le_one.mp hd k⟩

/-- Witness of C18: after a press of key 1, a second press of key 1 and a press
of key 2 the ids are distinct. -/
theorem registry_ids_distinct_witness :
    ((keyStep (keyStep (keyStep ([] : List (note ℚ)) 1 true 1 1) 1 true 2 1) 2 true 3 1).map
      (fun n => n.id)).Nodup :=
  (registry_ids_distinct (Libm.mk (fun _ => 0) (fun _ => 0) 3 32767)).1 _ 2 true 3 1
    ((registry_ids_distinct (Libm.mk (fun _ => 0) (fun _ => 0) 3 32767)).1 _ 1 true 2 1
      ((registry_ids_distinct (Libm.mk (fun _ => 0) (fun _ => 0) 3 32767)).1 [] 1 true 1 1
        List.nodup_nil))

/-- C20: a render pass keeps every active note whose selector is outside 1..5,
held or released, at every time. -/
theorem MakeNoise_keeps_unknown_selector (L : Libm α) (rand : Nat → Int)
    (v : List (note α)) (nChannel : Int) (dTime : α)
    (hact : ∀ n ∈ v, n.active = true) (n : note α) (hn : n ∈ v)
    (hsel : ¬ (1 ≤ n.channel ∧ n.channel ≤ 5)) :
    n ∈ (MakeNoise L rand v nChannel dTime).2 := by
  apply MakeNoise_keeps L rand v nChannel dTime n hn (hact n hn)
  intro hc
  obtain ⟨inst, hinst, _⟩ := (noteFinished_iff dTime n).mp hc.1
  exact hsel ((instrumentFor_eq_some_iff n.channel).mp ⟨inst, hinst⟩)

/-- Witness of C20: a note pressed under selector 0 at time 1 and released at
time 2 is still in the registry after the render pass at time 100. -/
theorem MakeNoise_keeps_unknown_selector_witness :
    (⟨7, 1, 2, true, 0⟩ : note ℚ) ∈
      (MakeNoise (Libm.mk (fun _ => 0) (fun _ => 0) 3 32767) (fun _ => 0)
        [(⟨7, 1, 2, true, 0⟩ : note ℚ)] 0 100).2 :=
  MakeNoise_keeps_unknown_selector _ _ [(⟨7, 1, 2, true, 0⟩ : note ℚ)] 0 100
    (by simp) ⟨7, 1, 2, true, 0⟩ (by simp) (by decide)

theorem updateFound_mem_of_fixed (k : Int) (g : note α → note α) (n : note α)
    (hg : g n = n) (v : List (note α)) (hn : n ∈ v) : n ∈ updateFound k g v := by
  induction v with
  | nil => exact absurd hn (List.not_mem_nil n)
  | cons x rest ih =>
    by_cases hx : x.id = k
    · rw [updateFound_cons_eq k g x rest hx]
      rcases List.mem_cons.mp hn with h | h
      · subst h
        rw [hg]
        exact List.mem_cons_self _ _
      · exact List.mem_cons_of_mem _ h
    · rw [updateFound_cons_ne k g x rest hx]
      rcases List.mem_cons.mp hn with h | h
      · subst h
        exact List.mem_cons_self _ _
      · exact List.mem_cons_of_mem _ (ih h)

/-- A key step leaves a note with `on = off` where it is. -/
theorem keyStep_keeps_stuck (v : List (note α)) (n : note α) (hn : n ∈ v)
    (heq : n.on_ = n.off) (k : Int) (nKeyState : Bool) (t : α) (sel : Int) :
    n ∈ keyStep v k nKeyState t sel := by
  by_cases h : ∀ x ∈ v, x.id ≠ k
  · rw [keyStep_absent v k nKeyState t sel h]
    split_ifs
    · exact List.mem_append_left _ hn
    · exact hn
  · push_neg at h
    obtain ⟨m, hm, hk⟩ := h
    rw [keyStep_present v k nKeyState t sel m hm hk]
    split_ifs
    · apply updateFound_mem_of_fixed _ _ _ _ _ hn
      rw [if_neg (not_lt.mpr heq.ge)]
    · apply updateFound_mem_of_fixed _ _ _ _ _ hn
      rw [if_neg (not_lt.mpr heq.le)]

theorem step_keeps_stuck (L : Libm α) (v : List (note α)) (n : note α) (hn : n ∈ v)
    (heq : n.on_ = n.off) (hact : n.active = true) (ev : Event α) :
    n ∈ step L v ev := by
  cases ev with
  | key k nKeyState t sel => exact keyStep_keeps_stuck v n hn heq k nKeyState t sel
  | render rand nChannel dTime =>
    exact MakeNoise_keeps L rand v nChannel dTime n hn hact
      (fun hc => absurd hc.2 (not_lt.mpr heq.ge))

theorem run_keeps_stuck (L : Libm α) (n : note α) (heq : n.on_ = n.off)
    (hact : n.active = true) (events : List (Event α)) :
    ∀ v : List (note α), n ∈ v → n ∈ run L v events := by
  induction events with
  | nil => intro v hn; exact hn
  | cons ev rest ih =>
    intro v hn
    exact ih (step L v ev) (step_keeps_stuck L v n hn heq hact ev)

theorem updateFound_active (k : Int) (g : note α → note α)
    (hg : ∀ n, n.active = true → (g n).active = true) (v : List (note α))
    (hv : ∀ n ∈ v, n.active = true) : ∀ n ∈ updateFound k g v, n.active = true := by
  induction v with
  | nil => intro n hn; exact absurd hn (List.not_mem_nil n)
  | cons x rest ih =>
    intro n hn
    by_cases hx : x.id = k
    · rw [updateFound_cons_eq k g x rest hx] at hn
      rcases List.mem_cons.mp hn with h | h
      · rw [h]; exact hg x (hv x (List.mem_cons_self _ _))
      · exact hv n (List.mem_cons_of_mem _ h)
    · rw [updateFound_cons_ne k g x rest hx] at hn
      rcases List.mem_cons.mp hn with h | h
      · rw [h]; exact hv x (List.mem_cons_self _ _)
      · exact ih (fun y hy => hv y (List.mem_cons_of_mem _ hy)) n h

/-- Every step leaves all notes marked active. -/
theorem step_active (L : Libm α) (v : List (note α)) (hv : ∀ n ∈ v, n.active = true)
    (ev : Event α) : ∀ n ∈ step L v ev, n.active = true := by
  cases ev with
  | key k nKeyState t sel =>
    intro n hn
    simp only [step] at hn
    by_cases h : ∀ x ∈ v, x.id ≠ k
    · rw [keyStep_absent v k nKeyState t sel h] at hn
      split_ifs at hn
      · rcases List.mem_append.mp hn with h1 | h1
        · exact hv n h1
        · rw [List.mem_singleton] at h1
          rw [h1]
      · exact hv n hn
    · push_neg at h
      obtain ⟨m, hm, hk⟩ := h
      rw [keyStep_present v k nKeyState t sel m hm hk] at hn
      split_ifs at hn
      · refine updateFound_active k _ ?_ v hv n hn
        intro x hx
        split_ifs
        · rfl
        · exact hx
      · refine updateFound_active k _ ?_ v hv n hn
        intro x hx
        split_ifs
        · exact hx
        · exact hx
  | render rand nChannel dTime =>
    intro n hn
    simp only [step] at hn
    rw [MakeNoise_notes] at hn
    exact (List.mem_filter.mp hn).2

theorem run_active (L : Libm α) (events : List (Event α)) :
    ∀ v : List (note α), (∀ n ∈ v, n.active = true) →
      ∀ n ∈ run L v events, n.active = true := by
  induction events with
  | nil => intro v hv; exact hv
  | cons ev rest ih =>
    intro v hv
    exact ih (step L v ev) (step_active L v hv ev)

/-- With a positive attack time and `0 <= attackTime + decayTime`, the amplitude
of a note with `on = off` is 0 at every time. -/
theorem amplitude_stuck (e : envelope_synth α) (ha : 0 < e.attackTime)
    (had : 0 ≤ e.attackTime + e.decayTime) (time x : α) :
    e.amplitude time x x = 0 := by
  rw [amplitude_released e time x x (lt_irrefl x)]
  have hl : adsLevel e (x - x) = 0 := by
    unfold adsLevel
    rw [sub_self, if_neg (not_lt.mpr had), if_neg (fun h => absurd h.1 (not_lt.mpr ha.le)),
      if_pos ha.le]
    simp
  rw [hl]
  simp [clampZero]

theorem amplitude_stuck_instruments (e : envelope_synth α)
    (he : e ∈ [(instBell : instrument α).env, (instHarm : instrument α).env,
      (instHpchord : instrument α).env, (instBass : instrument α).env,
      (instOcar : instrument α).env]) (time x : α) :
    e.amplitude time x x = 0 := by
  simp only [List.mem_cons, List.mem_singleton, List.not_mem_nil, or_false] at he
  rcases he with h | h | h | h | h <;> subst h <;>
    apply amplitude_stuck <;>
    norm_num [instBell, instHarm, instHpchord, instBass, instOcar, envelope_synth.new]

/-- A note with `on = off` contributes 0 to the mix, whatever its selector. -/
theorem dispatch_stuck (L : Libm α) (rand : Int) (dTime : α) (n : note α)
    (heq : n.on_ = n.off) : (MakeNoise.dispatch L rand dTime n).1 = 0 := by
  have hB := amplitude_stuck_instruments (instBell : instrument α).env (by simp) dTime n.off
  have hH := amplitude_stuck_instruments (instHarm : instrument α).env (by simp) dTime n.off
  have hP := amplitude_stuck_instruments (instHpchord : instrument α).env (by simp) dTime n.off
  have hS := amplitude_stuck_instruments (instBass : instrument α).env (by simp) dTime n.off
  have hO := amplitude_stuck_instruments (instOcar : instrument α).env (by simp) dTime n.off
  unfold MakeNoise.dispatch
  simp only []
  split_ifs <;>
    simp [instrument_harmonica.createSound, instrument_bell.createSound,
      instrument_harpsichord.createSound, instrument_bass.createSound,
      instrument_ocarina.createSound, envamp, heq, hB, hH, hP, hS, hO]

/-- C19: a note with `on = off` arises from a press at time 0, from a release
at the timestamp of the press, and from a re-press at the timestamp of the
release.  Such a note, being active as every note of a reachable registry is,
stays in the registry unchanged through every sequence of key steps and render
passes; its envelope amplitude is 0 at every time for each of the five
instruments and it contributes 0 to the mix. -/
theorem note_with_equal_times_is_stuck (L : Libm α) :
    (∀ k sel : Int, keyStep ([] : List (note α)) k true 0 sel = [⟨k, 0, 0, true, sel⟩]) ∧
      (∀ (k sel s2 : Int) (t : α), 0 < t →
        keyStep (keyStep ([] : List (note α)) k true t sel) k false t s2
          = [⟨k, t, t, true, sel⟩]) ∧
      (∀ (k sel s2 s3 : Int) (t1 t2 : α), 0 < t1 → t1 < t2 →
        keyStep (keyStep (keyStep ([] : List (note α)) k true t1 sel) k false t2 s2)
            k true t2 s3
          = [⟨k, t2, t2, true, sel⟩]) ∧
      (∀ (v : List (note α)) (n : note α), n ∈ v → n.on_ = n.off → n.active = true →
        ∀ events : List (Event α), n ∈ run L v events) ∧
      (∀ (events1 : List (Event α)) (n : note α), n ∈ run L [] events1 → n.on_ = n.off →
        ∀ events2 : List (Event α), n ∈ run L (run L [] events1) events2) ∧
      (∀ e ∈ [(instBell : instrument α).env, (instHarm : instrument α).env,
          (instHpchord : instrument α).env, (instBass : instrument α).env,
          (instOcar : instrument α).env],
        ∀ time x : α, e.amplitude time x x = 0) ∧
      (∀ (rand : Int) (dTime : α) (n : note α), n.on_ = n.off →
        (MakeNoise.dispatch L rand dTime n).1 = 0) := by
  refine ⟨?_, ?_, ?_, ?_, ?_, ?_, ?_⟩
  · intro k sel
    rw [keyStep_absent [] k true 0 sel (by simp), if_pos rfl]
    rfl
  · intro k sel s2 t ht
    rw [keyStep_absent [] k true t sel (by simp), if_pos rfl]
    rw [keyStep_present _ k false t s2 (⟨k, t, 0, true, sel⟩ : note α) (by simp) rfl]
    simp [updateFound, ht]
  · intro k sel s2 s3 t1 t2 h1 h12
    exact press_release_press_eq [] k sel s2 s3 t1 t2 t2 h1 h12 (by simp)
  · intro v n hn heq hact events
    exact run_keeps_stuck L n heq hact events v hn
  · intro events1 n hn heq events2
    exact run_keeps_stuck L n heq
      (run_active L events1 [] (by simp) n hn) events2 _ hn
  · intro e he time x
    exact amplitude_stuck_instruments e he time x
  · intro rand dTime n heq
    exact dispatch_stuck L rand dTime n heq

/-- Witness of C19: key 0 pressed at time 0 under the bell selector; after a
release at 1/2, a press at 1 and a render pass at 2 the note is still there with
`on = off = 0`. -/
theorem note_with_equal_times_is_stuck_witness :
    (⟨0, 0, 0, true, 2⟩ : note ℚ) ∈
      run (Libm.mk (fun _ => 0) (fun _ => 0) 3 32767) [(⟨0, 0, 0, true, 2⟩ : note ℚ)]
        [Event.key 0 false (1 / 2) 2, Event.key 0 true 1 2, Event.render (fun _ => 0) 0 2] :=
  (note_with_equal_times_is_stuck (Libm.mk (fun _ => 0) (fun _ => 0) 3 32767)).2.2.2.1
    [(⟨0, 0, 0, true, 2⟩ : note ℚ)] ⟨0, 0, 0, true, 2⟩ (by simp) rfl rfl _

end Registry

/-! ## Rounding to binary64 -/

section Rounding

theorem roundEven_near (q : ℚ) : |(roundEven q : ℚ) - q| ≤ 1 / 2 := by
  have h1 := Int.floor_le q
  have h2 := Int.lt_floor_add_one q
  unfold roundEven
  split_ifs with a b c
  · rw [abs_le]; constructor <;> linarith
  · rw [abs_le]; push_cast; constructor <;> linarith
  · rw [abs_le]; constructor <;> linarith
  · rw [abs_le]; push_cast; constructor <;> linarith

theorem roundEven_of_near (q : ℚ) (m : ℤ) (h : |q - m| < 1 / 2) : roundEven q = m := by
  have hn := roundEven_near q
  rw [abs_lt] at h
  rw [abs_le] at hn
  have h1 : ((roundEven q : ℤ) : ℚ) - m < 1 := by linarith
  have h2 : (-1 : ℚ) < ((roundEven q : ℤ) : ℚ) - m := by linarith
  have h3 : roundEven q - m < 1 := by exact_mod_cast h1
  have h4 : -1 < roundEven q - m := by exact_mod_cast h2
  omega

theorem roundEven_intCast (m : ℤ) : roundEven (m : ℚ) = m :=
  roundEven_of_near _ m (by simp)

theorem roundEven_tie_even (m : ℤ) (hm : m % 2 = 0) : roundEven ((m : ℚ) + 1 / 2) = m := by
  have hf : ⌊(m : ℚ) + 1 / 2⌋ = m := by
    rw [Int.floor_eq_iff]; constructor <;> linarith
  unfold roundEven
  rw [hf]
  rw [if_neg (by linarith), if_neg (by linarith), if_pos hm]

theorem roundEven_mono {p q : ℚ} (h : p ≤ q) : roundEven p ≤ roundEven q := by
  by_contra hc
  push_neg at hc
  have h1 : roundEven q + 1 ≤ roundEven p := hc
  have h1' : ((roundEven q : ℤ) : ℚ) + 1 ≤ roundEven p := by exact_mod_cast h1
  have hp := abs_le.mp (roundEven_near p)
  have hq := abs_le.mp (roundEven_near q)
  have hpq : p = q := by linarith
  rw [hpq] at hc
  exact lt_irrefl _ hc

end Rounding
section Binary64

theorem log_two_eq {x : ℚ} (k : ℤ) (h1 : (2 : ℚ) ^ k ≤ x) (h2 : x < (2 : ℚ) ^ (k + 1)) :
    Int.log 2 x = k := by
  have hx : 0 < x := lt_of_lt_of_le (zpow_pos (by norm_num) k) h1
  have a : k ≤ Int.log 2 x :=
    (Int.zpow_le_iff_le_log (by norm_num) hx).mp (by exact_mod_cast h1)
  have b : Int.log 2 x < k + 1 :=
    (Int.lt_zpow_iff_log_lt (by norm_num) hx).mp (by exact_mod_cast h2)
  omega

theorem log_two_spec {x : ℚ} (hx : 0 < x) :
    (2 : ℚ) ^ Int.log 2 x ≤ x ∧ x < (2 : ℚ) ^ (Int.log 2 x + 1) := by
  constructor
  · exact_mod_cast Int.zpow_log_le_self (b := 2) (by norm_num) hx
  · exact_mod_cast Int.lt_zpow_succ_log_self (b := 2) (by norm_num) x

theorem scaled_bounds {x : ℚ} (hx : 0 < x) :
    (2 : ℚ) ^ (52 : ℕ) ≤ x / 2 ^ (Int.log 2 x - 52) ∧
      x / 2 ^ (Int.log 2 x - 52) < (2 : ℚ) ^ (53 : ℕ) := by
  obtain ⟨h1, h2⟩ := log_two_spec hx
  have hu : (0 : ℚ) < 2 ^ (Int.log 2 x - 52) := zpow_pos (by norm_num) _
  have e1 : (2 : ℚ) ^ Int.log 2 x = 2 ^ (52 : ℕ) * 2 ^ (Int.log 2 x - 52) := by
    rw [← zpow_natCast, ← zpow_add₀ (by norm_num)]
    congr 1; push_cast; ring
  have e2 : (2 : ℚ) ^ (Int.log 2 x + 1) = 2 ^ (53 : ℕ) * 2 ^ (Int.log 2 x - 52) := by
    rw [← zpow_natCast, ← zpow_add₀ (by norm_num)]
    congr 1; push_cast; ring
  constructor
  · rw [le_div_iff₀ hu, ← e1]; exact h1
  · rw [div_lt_iff₀ hu, ← e2]; exact h2

theorem mantissa_bounds {x : ℚ} (hx : 0 < x) :
    (2 : ℤ) ^ (52 : ℕ) ≤ roundEven (x / 2 ^ (Int.log 2 x - 52)) ∧
      roundEven (x / 2 ^ (Int.log 2 x - 52)) ≤ (2 : ℤ) ^ (53 : ℕ) := by
  obtain ⟨h1, h2⟩ := scaled_bounds hx
  constructor
  · have := roundEven_mono (p := (((2 : ℤ) ^ (52 : ℕ) : ℤ) : ℚ)) (by push_cast; exact h1)
    rwa [roundEven_intCast] at this
  · have := roundEven_mono (q := (((2 : ℤ) ^ (53 : ℕ) : ℤ) : ℚ)) (by push_cast; exact h2.le)
    rwa [roundEven_intCast] at this

theorem fl64pos_bounds {x : ℚ} (hx : 0 < x) :
    (2 : ℚ) ^ Int.log 2 x ≤ fl64pos x ∧ fl64pos x ≤ (2 : ℚ) ^ (Int.log 2 x + 1) := by
  obtain ⟨h1, h2⟩ := mantissa_bounds hx
  have hu : (0 : ℚ) < 2 ^ (Int.log 2 x - 52) := zpow_pos (by norm_num) _
  have e1 : (2 : ℚ) ^ Int.log 2 x = 2 ^ (52 : ℕ) * 2 ^ (Int.log 2 x - 52) := by
    rw [← zpow_natCast, ← zpow_add₀ (by norm_num)]
    congr 1; push_cast; ring
  have e2 : (2 : ℚ) ^ (Int.log 2 x + 1) = 2 ^ (53 : ℕ) * 2 ^ (Int.log 2 x - 52) := by
    rw [← zpow_natCast, ← zpow_add₀ (by norm_num)]
    congr 1; push_cast; ring
  unfold fl64pos
  constructor
  · rw [e1]
    apply mul_le_mul_of_nonneg_right _ hu.le
    exact_mod_cast h1
  · rw [e2]
    apply mul_le_mul_of_nonneg_right _ hu.le
    exact_mod_cast h2

theorem fl64pos_pos {x : ℚ} (hx : 0 < x) : 0 < fl64pos x :=
  lt_of_lt_of_le (zpow_pos (by norm_num) _) (fl64pos_bounds hx).1

theorem fl64pos_mono {x y : ℚ} (hx : 0 < x) (hxy : x ≤ y) : fl64pos x ≤ fl64pos y := by
  have hy : 0 < y := lt_of_lt_of_le hx hxy
  have hl : Int.log 2 x ≤ Int.log 2 y := Int.log_mono_right hx hxy
  rcases eq_or_lt_of_le hl with h | h
  · unfold fl64pos
    rw [h]
    have hu : (0 : ℚ) < 2 ^ (Int.log 2 y - 52) := zpow_pos (by norm_num) _
    apply mul_le_mul_of_nonneg_right _ hu.le
    have : roundEven (x / 2 ^ (Int.log 2 y - 52)) ≤ roundEven (y / 2 ^ (Int.log 2 y - 52)) :=
      roundEven_mono (div_le_div_of_nonneg_right hxy hu.le)
    exact_mod_cast this
  · calc fl64pos x ≤ (2 : ℚ) ^ (Int.log 2 x + 1) := (fl64pos_bounds hx).2
      _ ≤ (2 : ℚ) ^ Int.log 2 y := zpow_le_zpow_right₀ (by norm_num) (by omega)
      _ ≤ fl64pos y := (fl64pos_bounds hy).1

/-- A positive number `m * 2^k` with `m < 2^53` is a double: rounding leaves it
unchanged. -/
theorem fl64pos_dyadic (m k : ℤ) (hm0 : 0 < m) (hm : m < 2 ^ (53 : ℕ)) :
    fl64pos ((m : ℚ) * 2 ^ k) = (m : ℚ) * 2 ^ k := by
  have h2 : (0 : ℚ) < 2 ^ k := zpow_pos (by norm_num) k
  have hx : (0 : ℚ) < (m : ℚ) * 2 ^ k := mul_pos (by exact_mod_cast hm0) h2
  have hlt : (m : ℚ) * 2 ^ k < (2 : ℚ) ^ (k + 53) := by
    rw [zpow_add₀ (by norm_num), mul_comm ((2 : ℚ) ^ k)]
    apply mul_lt_mul_of_pos_right _ h2
    have : ((m : ℤ) : ℚ) < ((2 : ℤ) ^ (53 : ℕ) : ℤ) := by exact_mod_cast hm
    have h53 : (((2 : ℤ) ^ (53 : ℕ) : ℤ) : ℚ) = (2 : ℚ) ^ (53 : ℤ) := by norm_num
    rw [← h53]
    exact this
  have hL : Int.log 2 ((m : ℚ) * 2 ^ k) < k + 53 :=
    (Int.lt_zpow_iff_log_lt (by norm_num) hx).mp (by exact_mod_cast hlt)
  obtain ⟨N, hN⟩ : ∃ N : ℕ, (N : ℤ) = k - (Int.log 2 ((m : ℚ) * 2 ^ k) - 52) :=
    ⟨(k - (Int.log 2 ((m : ℚ) * 2 ^ k) - 52)).toNat, Int.toNat_of_nonneg (by omega)⟩
  have hs : (m : ℚ) * 2 ^ k / 2 ^ (Int.log 2 ((m : ℚ) * 2 ^ k) - 52)
      = ((m * 2 ^ N : ℤ) : ℚ) := by
    rw [mul_div_assoc, ← zpow_sub₀ (by norm_num), ← hN]
    push_cast
    rw [zpow_natCast]
  unfold fl64pos
  rw [hs, roundEven_intCast]
  push_cast
  rw [mul_assoc, ← zpow_natCast, ← zpow_add₀ (by norm_num), hN]
  congr 2
  ring

theorem fl64pos_idem {x : ℚ} (hx : 0 < x) : fl64pos (fl64pos x) = fl64pos x := by
  obtain ⟨h1, h2⟩ := mantissa_bounds hx
  rcases eq_or_lt_of_le h2 with h | h
  · have e : fl64pos x = ((1 : ℤ) : ℚ) * 2 ^ (Int.log 2 x + 1) := by
      unfold fl64pos
      rw [h]
      have h53 : (((2 : ℤ) ^ (53 : ℕ) : ℤ) : ℚ) = (2 : ℚ) ^ (53 : ℤ) := by norm_num
      rw [h53, ← zpow_add₀ (by norm_num), Int.cast_one, one_mul]
      congr 1; ring
    rw [e]
    exact fl64pos_dyadic 1 _ (by norm_num) (by norm_num)
  · have hpos : 0 < roundEven (x / 2 ^ (Int.log 2 x - 52)) :=
      lt_of_lt_of_le (by norm_num) h1
    exact fl64pos_dyadic _ _ hpos h

end Binary64

section Binary64Signed

theorem fl64_of_pos {x : ℚ} (hx : 0 < x) : fl64 x = fl64pos x := by
  unfold fl64; rw [if_pos hx]

theorem fl64_of_neg {x : ℚ} (hx : x < 0) : fl64 x = -fl64pos (-x) := by
  unfold fl64; rw [if_neg (not_lt.mpr hx.le), if_pos hx]

theorem fl64_zero : fl64 0 = 0 := by
  unfold fl64; simp

theorem fl64_neg (x : ℚ) : fl64 (-x) = -fl64 x := by
  rcases lt_trichotomy x 0 with h | h | h
  · rw [fl64_of_pos (neg_pos.mpr h), fl64_of_neg h, neg_neg]
  · rw [h, neg_zero, fl64_zero, neg_zero]
  · rw [fl64_of_neg (neg_neg_of_pos h), fl64_of_pos h, neg_neg]

theorem fl64_mono (x y : ℚ) (h : x ≤ y) : fl64 x ≤ fl64 y := by
  rcases lt_trichotomy x 0 with hx | hx | hx
  · rw [fl64_of_neg hx]
    have px := fl64pos_pos (neg_pos.mpr hx)
    rcases lt_trichotomy y 0 with hy | hy | hy
    · rw [fl64_of_neg hy]
      exact neg_le_neg (fl64pos_mono (neg_pos.mpr hy) (neg_le_neg h))
    · rw [hy, fl64_zero]; linarith
    · rw [fl64_of_pos hy]
      have := fl64pos_pos hy
      linarith
  · rw [hx, fl64_zero]
    rcases eq_or_lt_of_le (hx ▸ h) with hy | hy
    · rw [← hy, fl64_zero]
    · rw [fl64_of_pos hy]; exact (fl64pos_pos hy).le
  · rw [fl64_of_pos hx, fl64_of_pos (lt_of_lt_of_le hx h)]
    exact fl64pos_mono hx h

theorem fl64_idem (x : ℚ) : fl64 (fl64 x) = fl64 x := by
  rcases lt_trichotomy x 0 with hx | hx | hx
  · rw [fl64_of_neg hx, fl64_neg, fl64_of_pos (fl64pos_pos (neg_pos.mpr hx)),
      fl64pos_idem (neg_pos.mpr hx)]
  · rw [hx, fl64_zero, fl64_zero]
  · rw [fl64_of_pos hx, fl64_of_pos (fl64pos_pos hx), fl64pos_idem hx]

/-- Every `m * 2^k` with `|m| < 2^53` is a double. -/
theorem fl64_dyadic (m k : ℤ) (hm : |m| < 2 ^ (53 : ℕ)) :
    fl64 ((m : ℚ) * 2 ^ k) = (m : ℚ) * 2 ^ k := by
  rw [abs_lt] at hm
  rcases lt_trichotomy m 0 with h | h | h
  · have e : (m : ℚ) * 2 ^ k = -(((-m : ℤ) : ℚ) * 2 ^ k) := by push_cast; ring
    have hp : (0 : ℚ) < ((-m : ℤ) : ℚ) * 2 ^ k :=
      mul_pos (by exact_mod_cast neg_pos.mpr h) (zpow_pos (by norm_num) k)
    rw [e, fl64_neg, fl64_of_pos hp, fl64pos_dyadic (-m) k (by omega) (by omega)]
  · rw [h]; simp [fl64_zero]
  · have hp : (0 : ℚ) < (m : ℚ) * 2 ^ k :=
      mul_pos (by exact_mod_cast h) (zpow_pos (by norm_num) k)
    rw [fl64_of_pos hp, fl64pos_dyadic m k h hm.2]

theorem fl64_one : fl64 1 = 1 := by
  have := fl64_dyadic 1 0 (by norm_num)
  simpa using this

theorem fl64_rounding : Rounding fl64 :=
  ⟨fl64_mono, fl64_idem, fl64_neg, fl64_zero, fl64_one⟩

/-- Evaluation of `fl64` away from a tie: `x` lies in the binade of `2^L` and
the integer `m` is within less than half a unit of the scaled value. -/
theorem fl64_eq_of_near (x : ℚ) (L m : ℤ) (h1 : (2 : ℚ) ^ L ≤ x) (h2 : x < (2 : ℚ) ^ (L + 1))
    (h : |x / 2 ^ (L - 52) - m| < 1 / 2) : fl64 x = (m : ℚ) * 2 ^ (L - 52) := by
  have hx : 0 < x := lt_of_lt_of_le (zpow_pos (by norm_num) L) h1
  rw [fl64_of_pos hx]
  unfold fl64pos
  rw [log_two_eq L h1 h2, roundEven_of_near _ m h]

/-- Evaluation of `fl64` at a tie with an even lower neighbour. -/
theorem fl64_eq_of_tie (x : ℚ) (L m : ℤ) (h1 : (2 : ℚ) ^ L ≤ x) (h2 : x < (2 : ℚ) ^ (L + 1))
    (h : x / 2 ^ (L - 52) = (m : ℚ) + 1 / 2) (hm : m % 2 = 0) :
    fl64 x = (m : ℚ) * 2 ^ (L - 52) := by
  have hx : 0 < x := lt_of_lt_of_le (zpow_pos (by norm_num) L) h1
  rw [fl64_of_pos hx]
  unfold fl64pos
  rw [log_two_eq L h1 h2, h, roundEven_tie_even m hm]

/-- The stored constant is the double nearest to the literal of main.cpp 16. -/
theorem TWO_TWELFTH_ROOT_eq_fl64 :
    TWO_TWELFTH_ROOT ℚ = fl64 1.0594630943592952645618252949463 := by
  have := fl64_eq_of_near 1.0594630943592952645618252949463 0 4771397596969315
    (by norm_num) (by norm_num) (by rw [abs_lt]; constructor <;> norm_num)
  rw [this]
  unfold TWO_TWELFTH_ROOT
  norm_num

end Binary64Signed

/-! ## The octave with a rounded power -/

section Binary64Error

/-- The relative error of `fl64` on a positive number is at most `2^-53`. -/
theorem fl64_rel_error {x : ℚ} (hx : 0 < x) : |fl64 x - x| ≤ x / 2 ^ 53 := by
  rw [fl64_of_pos hx]
  obtain ⟨h1, _⟩ := log_two_spec hx
  have hu : (0 : ℚ) < 2 ^ (Int.log 2 x - 52) := zpow_pos (by norm_num) _
  have hn := roundEven_near (x / 2 ^ (Int.log 2 x - 52))
  have e1 : (2 : ℚ) ^ Int.log 2 x = 2 ^ (52 : ℕ) * 2 ^ (Int.log 2 x - 52) := by
    rw [← zpow_natCast, ← zpow_add₀ (by norm_num)]
    congr 1; push_cast; ring
  have hux : (2 : ℚ) ^ (Int.log 2 x - 52) ≤ x / 2 ^ 52 := by
    rw [le_div_iff₀ (by norm_num), mul_comm, ← e1]; exact h1
  have key : fl64pos x - x
      = ((roundEven (x / 2 ^ (Int.log 2 x - 52)) : ℚ) - x / 2 ^ (Int.log 2 x - 52))
        * 2 ^ (Int.log 2 x - 52) := by
    unfold fl64pos
    field_simp
  rw [key, abs_mul, abs_of_pos hu]
  calc |(roundEven (x / 2 ^ (Int.log 2 x - 52)) : ℚ) - x / 2 ^ (Int.log 2 x - 52)|
        * 2 ^ (Int.log 2 x - 52)
      ≤ 1 / 2 * 2 ^ (Int.log 2 x - 52) := mul_le_mul_of_nonneg_right hn hu.le
    _ ≤ 1 / 2 * (x / 2 ^ 52) := mul_le_mul_of_nonneg_left hux (by norm_num)
    _ = x / 2 ^ 53 := by ring

/-- C4 as stated fails: twelve steps above note 0 the frequency is not twice the
frequency of note 0, because the twelfth power of the stored constant is not 2;
with a correctly rounded `pow` the two values are `512 + 2^-42` and 512. -/
theorem scale_octave_not_exact :
    (scale (0 + 12) SCALE_DEFAULT : ℚ) ≠ scale 0 SCALE_DEFAULT * 2 ∧
      scaleWith (fun (x : ℚ) (n : Int) => fl64 (x ^ n)) 0 SCALE_DEFAULT * 2 = 512 ∧
      scaleWith (fun (x : ℚ) (n : Int) => fl64 (x ^ n)) (0 + 12) SCALE_DEFAULT
        = 512 + 1 / 2 ^ 42 := by
  refine ⟨?_, ?_, ?_⟩
  · rw [scale_eq, scale_eq]
    norm_num [TWO_TWELFTH_ROOT]
  · rw [scaleWith_eq]
    simp only [zpow_zero, fl64_one]
    norm_num
  · rw [scaleWith_eq]
    have h12 : TWO_TWELFTH_ROOT ℚ ^ ((0 : ℤ) + 12) = TWO_TWELFTH_ROOT ℚ ^ (12 : ℕ) := by
      norm_num
      norm_cast
    have hv := fl64_eq_of_near (TWO_TWELFTH_ROOT ℚ ^ (12 : ℕ)) 1 (2 ^ 52 + 2)
      (by unfold TWO_TWELFTH_ROOT; norm_num) (by unfold TWO_TWELFTH_ROOT; norm_num)
      (by unfold TWO_TWELFTH_ROOT; rw [abs_lt]; constructor <;> norm_num)
    simp only [h12, hv]
    norm_num

/-- Witness of C4: a correctly rounded `pow`, note 0. -/
theorem scale_octave_witness :
    scaleWith (fun (x : ℚ) (n : Int) => fl64 (x ^ n)) 0 SCALE_DEFAULT * 2
        < scaleWith (fun (x : ℚ) (n : Int) => fl64 (x ^ n)) (0 + 12) SCALE_DEFAULT ∧
      scaleWith (fun (x : ℚ) (n : Int) => fl64 (x ^ n)) (0 + 12) SCALE_DEFAULT
          - scaleWith (fun (x : ℚ) (n : Int) => fl64 (x ^ n)) 0 SCALE_DEFAULT * 2
        < scaleWith (fun (x : ℚ) (n : Int) => fl64 (x ^ n)) 0 SCALE_DEFAULT * (1 / 10 ^ 14) :=
  scale_octave (fun (x : ℚ) (n : Int) => fl64 (x ^ n))
    (fun n => by
      have hp : (0 : ℚ) < TWO_TWELFTH_ROOT ℚ ^ n := zpow_pos TWO_TWELFTH_ROOT_pos n
      refine (fl64_rel_error hp).trans ?_
      apply div_le_div_of_nonneg_left hp.le (by norm_num) (by norm_num))
    0 SCALE_DEFAULT

end Binary64Error

/-! ## The envelope in doubles -/

section RoundedEnvelope

variable {α : Type} [LinearOrderedField α]

/-- With the identity as rounding function the rounded envelope is the exact
one. -/
theorem amplitudeR_id (e : envelope_synth α) (time timeOn timeOff : α) :
    e.amplitudeR id time timeOn timeOff = e.amplitude time timeOn timeOff := rfl

theorem amplitudeR_released (fl : α → α) (e : envelope_synth α) (time timeOn timeOff : α)
    (h : ¬ timeOn > timeOff) :
    e.amplitudeR fl time timeOn timeOff
      = clampZero (fl (fl (fl (fl (time - timeOff) / e.releaseTime)
            * fl (0 - adsLevelR fl e (fl (timeOff - timeOn))))
          + adsLevelR fl e (fl (timeOff - timeOn)))) := by
  simp only [envelope_synth.amplitudeR, adsLevelR, clampZero, if_neg h]
  norm_num

/-- The release level is a value the rounding leaves unchanged, when the sustain
level is one. -/
theorem adsLevelR_fixed (fl : α → α) (hfl : Rounding fl) (e : envelope_synth α)
    (hsus : fl e.sustainAmplitude = e.sustainAmplitude) (life : α) :
    fl (adsLevelR fl e life) = adsLevelR fl e life := by
  unfold adsLevelR
  split_ifs
  · exact hsus
  · exact hfl.idem _
  · exact hfl.idem _
  · exact hfl.zero

/-- The rounded release ramp is 0 once the rounded elapsed time has reached the
release time, when the release level is not negative. -/
theorem amplitudeR_zero_of_elapsed (fl : α → α) (hfl : Rounding fl) (e : envelope_synth α)
    (hrel : 0 < e.releaseTime) (hsus : fl e.sustainAmplitude = e.sustainAmplitude)
    (time timeOn timeOff : α) (hoff : timeOff > timeOn)
    (hlevel : 0 ≤ adsLevelR fl e (fl (timeOff - timeOn)))
    (hel : e.releaseTime ≤ fl (time - timeOff)) :
    e.amplitudeR fl time timeOn timeOff = 0 := by
  rw [amplitudeR_released fl e time timeOn timeOff (not_lt.mpr hoff.le)]
  generalize hra : adsLevelR fl e (fl (timeOff - timeOn)) = ra at hlevel
  have hfix : fl ra = ra := by rw [← hra]; exact adsLevelR_fixed fl hfl e hsus _
  have hx : 1 ≤ fl (fl (time - timeOff) / e.releaseTime) := by
    have h1 : 1 ≤ fl (time - timeOff) / e.releaseTime := by
      rw [le_div_iff₀ hrel]; linarith
    have := hfl.mono _ _ h1
    rwa [hfl.one] at this
  have hn : fl (0 - ra) = -ra := by rw [zero_sub, hfl.neg, hfix]
  rw [hn]
  have hp : fl (fl (fl (time - timeOff) / e.releaseTime) * -ra) ≤ -ra := by
    have h2 : fl (fl (time - timeOff) / e.releaseTime) * -ra ≤ -ra := by nlinarith
    have := hfl.mono _ _ h2
    rwa [hfl.neg, hfix] at this
  have hs : fl (fl (fl (fl (time - timeOff) / e.releaseTime) * -ra) + ra) ≤ 0 := by
    have := hfl.mono _ _ (show fl (fl (fl (time - timeOff) / e.releaseTime) * -ra) + ra ≤ 0 by
      linarith)
    rwa [hfl.zero] at this
  unfold clampZero
  rw [if_pos hs]

/-- C11 amended: for every rounding function with the properties of `Rounding`
(`fl64` is one) and every released note whose release level, as computed, is not
negative, the amplitude is exactly 0 at every time from the first `t0` on at
which the rounded elapsed time `fl (t0 - timeOff)` has reached `releaseTime`. -/
theorem amplitudeR_zero_after_release (fl : α → α) (hfl : Rounding fl)
    (e : envelope_synth α) (hrel : 0 < e.releaseTime)
    (hsus : fl e.sustainAmplitude = e.sustainAmplitude)
    (timeOn timeOff : α) (hoff : timeOff > timeOn)
    (hlevel : 0 ≤ adsLevelR fl e (fl (timeOff - timeOn)))
    (t0 : α) (h0 : e.releaseTime ≤ fl (t0 - timeOff)) :
    ∀ t, t0 ≤ t → e.amplitudeR fl t timeOn timeOff = 0 := by
  intro t ht
  apply amplitudeR_zero_of_elapsed fl hfl e hrel hsus t timeOn timeOff hoff hlevel
  exact h0.trans (hfl.mono _ _ (by linarith))

end RoundedEnvelope

section RoundedEnvelope64

theorem fl64_fixed (x : ℚ) (m k : ℤ) (hm : |m| < 2 ^ (53 : ℕ)) (hx : x = (m : ℚ) * 2 ^ k) :
    fl64 x = x := by
  rw [hx]; exact fl64_dyadic m k hm

theorem fl64_tenth : fl64 (1 / 10) = 3602879701896397 / 36028797018963968 := by
  have := fl64_eq_of_near (1 / 10) (-4) 7205759403792794 (by norm_num) (by norm_num)
    (by rw [abs_lt]; constructor <;> norm_num)
  rw [this]; norm_num

/-- The ocarina parameters as stored in doubles. -/
theorem instOcar_stored :
    ((instOcar : instrument ℚ).env.stored fl64).attackTime
        = 3602879701896397 / 36028797018963968 ∧
      ((instOcar : instrument ℚ).env.stored fl64).decayTime = 0 ∧
      ((instOcar : instrument ℚ).env.stored fl64).releaseTime = 1 ∧
      ((instOcar : instrument ℚ).env.stored fl64).sustainAmplitude = 1 ∧
      ((instOcar : instrument ℚ).env.stored fl64).startAmplitude = 1 := by
  have h0 : fl64 (0.0 : ℚ) = 0 := by norm_num [fl64_zero]
  have h1 : fl64 (1.0 : ℚ) = 1 := by norm_num [fl64_one]
  have ht : fl64 (0.1 : ℚ) = 3602879701896397 / 36028797018963968 := by
    rw [← fl64_tenth]; norm_num
  simp only [envelope_synth.stored, instOcar, envelope_synth.new, h0, h1, ht, and_self]

/-- The trace of the rounded envelope for a note pressed at `1/4`, released at
`1/2 + 2^-53` and read at the rounded sum of the release instant and the release
time, for parameters with the stored ocarina values. -/
theorem amplitudeR_trace (e : envelope_synth ℚ)
    (ha : e.attackTime = 3602879701896397 / 36028797018963968) (hd : e.decayTime = 0)
    (hr : e.releaseTime = 1) (hs : e.sustainAmplitude = 1) :
    fl64 ((1 / 2 + 1 / 2 ^ 53) + e.releaseTime) = 3 / 2 ∧
      e.amplitudeR fl64 (fl64 ((1 / 2 + 1 / 2 ^ 53) + e.releaseTime)) (1 / 4)
        (1 / 2 + 1 / 2 ^ 53) = 1 / 2 ^ 53 := by
  have ht : fl64 ((1 / 2 + 1 / 2 ^ 53) + e.releaseTime) = 3 / 2 := by
    rw [hr]
    have := fl64_eq_of_tie (1 / 2 + 1 / 2 ^ 53 + 1) 0 (3 * 2 ^ 51) (by norm_num) (by norm_num)
      (by norm_num) (by norm_num)
    rw [this]; norm_num
  refine ⟨ht, ?_⟩
  rw [ht, amplitudeR_released fl64 e _ _ _ (by norm_num)]
  have hlife : fl64 (1 / 2 + 1 / 2 ^ 53 - 1 / 4) = 1 / 2 + 1 / 2 ^ 53 - 1 / 4 :=
    fl64_fixed _ (2 ^ 51 + 1) (-53) (by norm_num) (by norm_num)
  have hsum : fl64 (e.attackTime + e.decayTime) = 3602879701896397 / 36028797018963968 := by
    rw [ha, hd, add_zero]
    exact fl64_fixed _ 3602879701896397 (-55) (by norm_num) (by norm_num)
  have hlevel : adsLevelR fl64 e (fl64 (1 / 2 + 1 / 2 ^ 53 - 1 / 4)) = 1 := by
    unfold adsLevelR
    rw [hsum, hlife, if_pos (by norm_num), hs]
  rw [hlevel, hr]
  have s1 : fl64 (3 / 2 - (1 / 2 + 1 / 2 ^ 53)) = 1 - 1 / 2 ^ 53 := by
    rw [fl64_fixed _ (2 ^ 53 - 1) (-53) (by norm_num) (by norm_num)]; norm_num
  have s2 : fl64 ((1 - 1 / 2 ^ 53) / 1) = 1 - 1 / 2 ^ 53 := by
    rw [fl64_fixed _ (2 ^ 53 - 1) (-53) (by norm_num) (by norm_num)]; norm_num
  have s3 : fl64 (0 - 1) = -1 := by
    rw [fl64_fixed _ (-1) 0 (by norm_num) (by norm_num)]; norm_num
  have s4 : fl64 ((1 - 1 / 2 ^ 53) * -1) = -(1 - 1 / 2 ^ 53) := by
    rw [fl64_fixed _ (-(2 ^ 53 - 1)) (-53) (by norm_num) (by norm_num)]; norm_num
  have s5 : fl64 (-(1 - 1 / 2 ^ 53) + 1) = 1 / 2 ^ 53 := by
    rw [fl64_fixed _ 1 (-53) (by norm_num) (by norm_num)]; norm_num
  rw [s1, s2, s3, s4, s5]
  norm_num [clampZero]

/-- C11 as stated fails in doubles: for the ocarina parameters, a note pressed
at `1/4` and released at `1/2 + 2^-53` has, at the rounded sum of the release
instant and the release time (which is `3/2`), the amplitude `2^-53`, not 0. -/
theorem amplitudeR_residue :
    0 < ((instOcar : instrument ℚ).env.stored fl64).releaseTime ∧
      0 ≤ ((instOcar : instrument ℚ).env.stored fl64).startAmplitude ∧
      0 ≤ ((instOcar : instrument ℚ).env.stored fl64).sustainAmplitude ∧
      (1 / 2 + 1 / 2 ^ 53 : ℚ) > 1 / 4 ∧
      ((instOcar : instrument ℚ).env.stored fl64).amplitudeR fl64
          (fl64 ((1 / 2 + 1 / 2 ^ 53)
            + ((instOcar : instrument ℚ).env.stored fl64).releaseTime))
          (1 / 4) (1 / 2 + 1 / 2 ^ 53)
        = 1 / 2 ^ 53 ∧
      ((instOcar : instrument ℚ).env.stored fl64).amplitudeR fl64
          (fl64 ((1 / 2 + 1 / 2 ^ 53)
            + ((instOcar : instrument ℚ).env.stored fl64).releaseTime))
          (1 / 4) (1 / 2 + 1 / 2 ^ 53)
        ≠ 0 := by
  obtain ⟨ha, hd, hr, hs, hb⟩ := instOcar_stored
  have htr := (amplitudeR_trace _ ha hd hr hs).2
  refine ⟨by rw [hr]; norm_num, by rw [hb]; norm_num, by rw [hs]; norm_num, by norm_num,
    htr, ?_⟩
  rw [htr]
  norm_num

/-- Witness of C11: the stored ocarina parameters, a note pressed at `1/4` and
released at `1/2`; the rounded elapsed time at 2 is `3/2`, and the amplitude is
0 at time 3. -/
theorem amplitudeR_zero_after_release_witness :
    ((instOcar : instrument ℚ).env.stored fl64).amplitudeR fl64 3 (1 / 4) (1 / 2) = 0 :=
  amplitudeR_zero_after_release fl64 fl64_rounding
    ((instOcar : instrument ℚ).env.stored fl64)
    (by rw [instOcar_stored.2.2.1]; norm_num)
    (by rw [instOcar_stored.2.2.2.1]; exact fl64_one)
    (1 / 4) (1 / 2) (by norm_num)
    (by
      obtain ⟨ha, hd, hr, hs, hb⟩ := instOcar_stored
      have hlife : fl64 ((1 : ℚ) / 2 - 1 / 4) = 1 / 4 := by
        rw [fl64_fixed _ 1 (-2) (by norm_num) (by norm_num)]; norm_num
      have hsum : fl64 (((instOcar : instrument ℚ).env.stored fl64).attackTime
          + ((instOcar : instrument ℚ).env.stored fl64).decayTime)
          = 3602879701896397 / 36028797018963968 := by
        rw [ha, hd, add_zero]
        exact fl64_fixed _ 3602879701896397 (-55) (by norm_num) (by norm_num)
      unfold adsLevelR
      rw [hsum, hlife, if_pos (by norm_num), hs]
      norm_num)
    2
    (by
      rw [instOcar_stored.2.2.1]
      have : fl64 ((2 : ℚ) - 1 / 2) = 3 / 2 := by
        rw [fl64_fixed _ 3 (-1) (by norm_num) (by norm_num)]; norm_num
      rw [this]; norm_num)
    3 (by norm_num)

end RoundedEnvelope64

end KeyboardSynth
